import Mathlib

/-!
Verification development for the Telegram-export → Hugo converter
(`tg2hugo.py`).  Python strings are modelled as `List Char` (sequences of
Unicode code points); where Telegram's UTF-16 code-unit arithmetic matters
we model code points as raw `Nat`s and UTF-16 code units as `Nat`s below
`2 ^ 16`.  External collaborators (the `markdownify` HTML→Markdown
converter, the `python-slugify` `slugify` function, `datetime`/`zoneinfo`
date handling and the filesystem) are modelled as function parameters; all
logic that lives in `tg2hugo.py` itself is embedded directly.

Python-specific conventions mirrored here:
* `str.strip()` and the regex class `\s` are modelled on the ASCII
  whitespace characters (space, tab, newline, carriage return, vertical
  tab, form feed); Python additionally treats a few rare non-ASCII spaces
  as whitespace, which no claim exercises.
* the regex class `[\w_]` is modelled as ASCII alphanumerics plus
  underscore; Python additionally accepts non-ASCII word characters,
  which no claim exercises.
-/

/-- Python strings as lists of code points. -/
abbrev Str := List Char

/-- ASCII whitespace, the characters `str.strip()` / regex `\s` act on. -/
def isPySpace (c : Char) : Bool :=
  c == ' ' || c == '\t' || c == '\n' || c == '\r' ||
  c == Char.ofNat 0x0b || c == Char.ofNat 0x0c

/-- Model of the regex class `[\w_]` (word characters). -/
def isWordC (c : Char) : Bool := c.isAlphanum || c == '_'

/-- `s.strip()`: remove leading and trailing whitespace. -/
def pyStrip (s : Str) : Str :=
  ((s.dropWhile isPySpace).reverse.dropWhile isPySpace).reverse

/-- `s.rstrip()`: remove trailing whitespace. -/
def pyStripRight (s : Str) : Str :=
  (s.reverse.dropWhile isPySpace).reverse

/-- Decimal digit character for `n < 10`. -/
def digitCh (n : Nat) : Char := Char.ofNat (48 + n)

/-- Fuel-driven decimal printer; `fuel` bounds the number of division
steps, `n` itself is always enough fuel. -/
def natDigitsAux : Nat → Nat → Str → Str
  | 0, n, acc => digitCh (n % 10) :: acc
  | fuel + 1, n, acc =>
    if n < 10 then digitCh n :: acc
    else natDigitsAux fuel (n / 10) (digitCh (n % 10) :: acc)

/-- Decimal representation of a natural number, as produced by Python's
`str(n)` / f-string formatting. -/
def natDigits (n : Nat) : Str := natDigitsAux n n []

/-- Numeric value of the ASCII digit character `c`. -/
def digitVal (c : Char) : Nat := c.toNat - 48

/-- Value of a digit string, as computed by Python's `int(...)`. -/
def digitsVal (ds : Str) : Nat := ds.foldl (fun a c => 10 * a + digitVal c) 0

theorem natDigitsAux_acc (fuel n : Nat) (acc : Str) :
    natDigitsAux fuel n acc = natDigitsAux fuel n [] ++ acc := by
  induction fuel generalizing n acc with
  | zero => simp [natDigitsAux]
  | succ f ih =>
    by_cases h : n < 10
    · simp [natDigitsAux, h]
    · simp only [natDigitsAux, h, if_false]
      rw [ih (n / 10) (digitCh (n % 10) :: acc), ih (n / 10) [digitCh (n % 10)]]
      simp

theorem digitVal_digitCh {n : Nat} (h : n < 10) : digitVal (digitCh n) = n := by
  interval_cases n <;> decide

theorem digitsVal_natDigitsAux (fuel n : Nat) (h : n ≤ fuel) :
    digitsVal (natDigitsAux fuel n []) = n := by
  induction fuel generalizing n with
  | zero =>
    have : n = 0 := Nat.le_zero.mp h
    subst this; decide
  | succ f ih =>
    by_cases hn : n < 10
    · simp only [natDigitsAux, hn, if_true, digitsVal, List.foldl]
      simpa using digitVal_digitCh hn
    · simp only [natDigitsAux, hn, if_false]
      rw [natDigitsAux_acc]
      have hdiv : n / 10 ≤ f := by omega
      have := ih (n / 10) hdiv
      simp only [digitsVal] at this ⊢
      rw [List.foldl_append, this]
      simp only [List.foldl]
      rw [digitVal_digitCh (Nat.mod_lt n (by omega))]
      omega

/-- `natDigits` is a faithful decimal printer: `int(str(n)) = n`. -/
theorem digitsVal_natDigits (n : Nat) : digitsVal (natDigits n) = n :=
  digitsVal_natDigitsAux n n le_rfl

theorem natDigits_injective : Function.Injective natDigits := by
  intro a b h
  have := digitsVal_natDigits a
  rw [h, digitsVal_natDigits] at this
  omega

/-! ### UTF-16 code-unit arithmetic (`_utf16_slice` / `_utf16_splice`)

Telegram entity offsets count UTF-16 code units.  `tg2hugo.py` encodes the
Python string to UTF-16-LE bytes, slices at `2 * offset` byte positions and
decodes back.  Since every code unit is exactly two bytes, we model the
byte string directly as a list of code units (`Nat`s below `2 ^ 16`); code
points are `Nat`s below `0x110000` outside the surrogate range. -/

/-- A scalar Unicode code point (what a Python `str` element may hold,
surrogates excluded). -/
def ValidCp (n : Nat) : Prop := n < 0xD800 ∨ (0xDFFF < n ∧ n < 0x110000)

instance (n : Nat) : Decidable (ValidCp n) := by unfold ValidCp; infer_instance

/-- UTF-16 encoding of one code point: one unit for the BMP, a surrogate
pair otherwise. -/
def utf16EncCp (n : Nat) : List Nat :=
  if n < 0x10000 then [n]
  else [0xD800 + (n - 0x10000) / 0x400, 0xDC00 + (n - 0x10000) % 0x400]

/-- `s.encode("utf-16-le")`, with bytes paired into code units. -/
def utf16Encode (s : List Nat) : List Nat := (s.map utf16EncCp).flatten

/-- `bytes.decode("utf-16-le")`: pairs surrogates back into code points and
fails (`None`, modelling `UnicodeDecodeError`) on a lone surrogate. -/
def utf16Decode : List Nat → Option (List Nat)
  | [] => some []
  | u :: us =>
    if u < 0xD800 || 0xDFFF < u then (utf16Decode us).map (u :: ·)
    else if u ≤ 0xDBFF then
      match us with
      | [] => none
      | v :: us2 =>
        if 0xDC00 ≤ v && v ≤ 0xDFFF then
          (utf16Decode us2).map ((0x10000 + (u - 0xD800) * 0x400 + (v - 0xDC00)) :: ·)
        else none
    else none

/-- Number of UTF-16 code units of a code-point sequence. -/
def utf16Len (s : List Nat) : Nat := (utf16Encode s).length

/-- `_utf16_slice(s, start_units, end_units)` from `tg2hugo.py`:
`s.encode("utf-16-le")[2*start : 2*end].decode("utf-16-le")`. -/
def utf16_slice (s : List Nat) (startUnits endUnits : Nat) : Option (List Nat) :=
  utf16Decode (((utf16Encode s).take endUnits).drop startUnits)

/-- `_utf16_splice(s, start_units, end_units, insert)` from `tg2hugo.py`:
`(b[:2*start] + insert.encode("utf-16-le") + b[2*end:]).decode("utf-16-le")`. -/
def utf16_splice (s : List Nat) (startUnits endUnits : Nat) (insert : List Nat) :
    Option (List Nat) :=
  utf16Decode ((utf16Encode s).take startUnits ++ utf16Encode insert ++
    (utf16Encode s).drop endUnits)

theorem utf16Encode_append (a b : List Nat) :
    utf16Encode (a ++ b) = utf16Encode a ++ utf16Encode b := by
  simp [utf16Encode]

theorem utf16Decode_cons_bmp (u : Nat) (us : List Nat) (h : u < 0xD800 ∨ 0xDFFF < u) :
    utf16Decode (u :: us) = (utf16Decode us).map (u :: ·) := by
  have hb : (u < 0xD800 || 0xDFFF < u) = true := by
    rcases h with h | h <;> simp [h]
  rw [utf16Decode.eq_def]
  simp [hb]

theorem utf16Decode_cons_pair (u v : Nat) (us : List Nat)
    (h1 : 0xD800 ≤ u) (h2 : u ≤ 0xDBFF) (h3 : 0xDC00 ≤ v) (h4 : v ≤ 0xDFFF) :
    utf16Decode (u :: v :: us) =
      (utf16Decode us).map ((0x10000 + (u - 0xD800) * 0x400 + (v - 0xDC00)) :: ·) := by
  have hb : (u < 0xD800 || 0xDFFF < u) = false := by
    simp only [Bool.or_eq_false_iff, decide_eq_false_iff_not, not_lt]
    omega
  have hv : (0xDC00 ≤ v && v ≤ 0xDFFF) = true := by
    simp only [Bool.and_eq_true, decide_eq_true_eq]; omega
  rw [utf16Decode.eq_def]
  simp [hb, h2, hv]

/-- Decoding the encoding of a valid code-point sequence followed by any
tail decodes the tail and prepends the sequence. -/
theorem utf16Decode_encode_append (q : List Nat) (tail : List Nat)
    (hq : ∀ n ∈ q, ValidCp n) :
    utf16Decode (utf16Encode q ++ tail) = (utf16Decode tail).map (q ++ ·) := by
  induction q with
  | nil =>
    simp only [utf16Encode, List.map_nil, List.flatten_nil, List.nil_append]
    cases utf16Decode tail <;> simp
  | cons n rest ih =>
    have hn : ValidCp n := hq n (List.mem_cons_self n rest)
    have hrest : ∀ m ∈ rest, ValidCp m := fun m hm => hq m (List.mem_cons_of_mem n hm)
    have henc : utf16Encode (n :: rest) = utf16EncCp n ++ utf16Encode rest := by
      simp [utf16Encode]
    rw [henc, List.append_assoc]
    by_cases hb : n < 0x10000
    · have hlo : n < 0xD800 ∨ 0xDFFF < n := by
        rcases hn with h | h
        · exact Or.inl h
        · exact Or.inr h.1
      rw [show utf16EncCp n = [n] from by simp [utf16EncCp, hb]]
      rw [List.cons_append, List.nil_append, utf16Decode_cons_bmp n _ hlo, ih hrest]
      cases utf16Decode tail <;> simp
    · have hhi : 0x10000 ≤ n := Nat.le_of_not_lt hb
      have hub : n < 0x110000 := by
        rcases hn with h | h
        · omega
        · exact h.2
      have hdiv : (n - 0x10000) / 0x400 < 0x400 := by
        apply Nat.div_lt_of_lt_mul; omega
      have hmod : (n - 0x10000) % 0x400 < 0x400 := Nat.mod_lt _ (by omega)
      rw [show utf16EncCp n = [0xD800 + (n - 0x10000) / 0x400,
            0xDC00 + (n - 0x10000) % 0x400] from by simp [utf16EncCp, hb]]
      rw [List.cons_append, List.cons_append, List.nil_append,
        utf16Decode_cons_pair _ _ _ (by omega) (by omega) (by omega) (by omega),
        ih hrest]
      have hval : 0x10000 + (0xD800 + (n - 0x10000) / 0x400 - 0xD800) * 0x400 +
          (0xDC00 + (n - 0x10000) % 0x400 - 0xDC00) = n := by
        have := Nat.div_add_mod (n - 0x10000) 0x400
        omega
      rw [hval]
      cases utf16Decode tail <;> simp

theorem utf16Decode_encode (q : List Nat) (hq : ∀ n ∈ q, ValidCp n) :
    utf16Decode (utf16Encode q) = some q := by
  have := utf16Decode_encode_append q [] hq
  simpa [utf16Decode] using this

/-- Claim C2: on code-point boundaries, `_utf16_slice` returns exactly the
code points between the boundaries and `_utf16_splice` replaces them by the
inserted text, keeping two-code-unit code points (astral characters such as
emoji) atomic.  The boundaries are `utf16Len p` and `utf16Len (p ++ q)` for
the decomposition `s = p ++ q ++ r`. -/
theorem utf16_slice_splice_correct (p q r ins : List Nat)
    (hp : ∀ n ∈ p, ValidCp n) (hq : ∀ n ∈ q, ValidCp n)
    (hr : ∀ n ∈ r, ValidCp n) (hins : ∀ n ∈ ins, ValidCp n) :
    utf16_slice (p ++ q ++ r) (utf16Len p) (utf16Len p + utf16Len q) = some q ∧
    utf16_splice (p ++ q ++ r) (utf16Len p) (utf16Len p + utf16Len q) ins =
      some (p ++ ins ++ r) := by
  have henc : utf16Encode (p ++ q ++ r) =
      utf16Encode p ++ utf16Encode q ++ utf16Encode r := by
    rw [utf16Encode_append, utf16Encode_append]
  have htake : (utf16Encode (p ++ q ++ r)).take (utf16Len p + utf16Len q) =
      utf16Encode p ++ utf16Encode q := by
    rw [henc, List.take_left' (by simp [utf16Len])]
  have hdrop1 : (utf16Encode p ++ utf16Encode q).drop (utf16Len p) =
      utf16Encode q := List.drop_left _ _
  constructor
  · rw [utf16_slice, htake, hdrop1]
    exact utf16Decode_encode q hq
  · rw [utf16_splice]
    have htakep : (utf16Encode (p ++ q ++ r)).take (utf16Len p) = utf16Encode p := by
      rw [henc, List.append_assoc, List.take_left' (by rfl)]
    have hdropr : (utf16Encode (p ++ q ++ r)).drop (utf16Len p + utf16Len q) =
        utf16Encode r := by
      rw [henc, List.drop_left' (by simp [utf16Len])]
    rw [htakep, hdropr, ← utf16Encode_append, List.append_assoc, ← utf16Encode_append,
      ← List.append_assoc]
    exact utf16Decode_encode _ (by
      intro n hn
      rcases List.mem_append.mp hn with h | h
      · rcases List.mem_append.mp h with h2 | h2
        · exact hp n h2
        · exact hins n h2
      · exact hr n h)

/-- Witness for C2 at a concrete input: `s = ['a', U+1F600, 'b']` (the
middle code point is an emoji taking two code units), sliced between the
boundaries after `'a'` (unit 1) and after the emoji (unit 3), spliced with
`['x']`. -/
theorem utf16_slice_splice_correct_witness :
    utf16_slice [97, 0x1F600, 98] 1 3 = some [0x1F600] ∧
    utf16_splice [97, 0x1F600, 98] 1 3 [120] = some [97, 120, 98] := by
  have h := utf16_slice_splice_correct [97] [0x1F600] [98] [120]
    (by decide) (by decide) (by decide) (by decide)
  have h1 : utf16Len [97] = 1 := by decide
  have h2 : utf16Len [0x1F600] = 2 := by decide
  rw [h1, h2] at h
  exact h

/-! ### Matching the `t.me` post-URL patterns

`tg2hugo.py` recognises internal references with the regexes

* `TG_MD_LINK_RE  = \[(?P<text>[^\]]+)\]\((?P<url>https?://t\.me/(?:c/\d+/)?[\w_]+/(?P<id>\d+))\)`
* `TG_AUTOLINK_RE = <(?P<url>https?://t\.me/(?:c/\d+/)?[\w_]+/(?P<id>\d+))>`
* `TG_BARE_URL_RE = (?<!\()(?<!<)(?P<url>https?://t\.me/(?:c/\d+/)?[\w_]+/(?P<id>\d+))(?!\))`
* `TG_POST_ID_RE  = https?://t\.me/(?:c/\d+/)?[\w_]+/(\d+)`

We embed each as a hand-written matcher that reproduces the backtracking
order of the Python `re` engine: the optional `(?:c/\d+/)?` group is tried
greedily first and dropped on failure; the runs `\d+` and `[\w_]+` are
maximal-munch (shrinking them can never help when the next pattern element
is a literal the run's character class excludes); the final `(?P<id>\d+)`
of the bare pattern can give back exactly one digit when the lookahead
`(?!\))` fails on the maximal run. -/

/-- Consume a literal prefix. -/
def dropLit : Str → Str → Option Str
  | [], cs => some cs
  | p :: ps, c :: cs => if c == p then dropLit ps cs else none
  | _ :: _, [] => none

/-- Maximal non-empty run of characters satisfying `p` (regex `X+`). -/
def take1While (p : Char → Bool) (cs : Str) : Option (Str × Str) :=
  if (cs.takeWhile p).isEmpty then none else some (cs.takeWhile p, cs.dropWhile p)

/-- Match `https?://t.me/` (greedy `s?`), returning the consumed scheme
characters and the remainder. -/
def matchScheme (cs : Str) : Option (Str × Str) :=
  match dropLit ("http".toList) cs with
  | none => none
  | some r =>
    match dropLit ("s://t.me/".toList) r with
    | some r2 => some ("https://t.me/".toList, r2)
    | none =>
      match dropLit ("://t.me/".toList) r with
      | some r2 => some ("http://t.me/".toList, r2)
      | none => none

theorem dropLit_sound {lit cs r : Str} (h : dropLit lit cs = some r) :
    cs = lit ++ r := by
  induction lit generalizing cs with
  | nil =>
    cases cs with
    | nil => simpa [dropLit] using congrArg (Option.getD · []) h
    | cons c cs2 => simpa [dropLit] using congrArg (Option.getD · []) h
  | cons p ps ih =>
    cases cs with
    | nil => simp [dropLit] at h
    | cons c cs2 =>
      simp only [dropLit] at h
      split at h
      · next heq =>
        have := ih h
        simp_all
      · exact absurd h (by simp)

theorem take1While_sound {p : Char → Bool} {cs t r : Str}
    (h : take1While p cs = some (t, r)) : cs = t ++ r ∧ t ≠ [] := by
  unfold take1While at h
  split at h
  · exact absurd h (by simp)
  · next ht =>
    obtain ⟨rfl, rfl⟩ : cs.takeWhile p = t ∧ cs.dropWhile p = r := by
      simpa using h
    exact ⟨(List.takeWhile_append_dropWhile p cs).symm,
      fun hc => ht (by simp [hc])⟩

theorem matchScheme_sound {cs sch r : Str} (h : matchScheme cs = some (sch, r)) :
    cs = sch ++ r ∧ sch ≠ [] := by
  unfold matchScheme at h
  split at h
  · exact absurd h (by simp)
  · next r0 h0 =>
    split at h
    · next r2 h2 =>
      obtain ⟨rfl, rfl⟩ : "https://t.me/".toList = sch ∧ r2 = r := by simpa using h
      have e0 := dropLit_sound h0
      have e2 := dropLit_sound h2
      subst e0 e2
      exact ⟨rfl, by decide⟩
    · split at h
      · next r2 h2 =>
        obtain ⟨rfl, rfl⟩ : "http://t.me/".toList = sch ∧ r2 = r := by simpa using h
        have e0 := dropLit_sound h0
        have e2 := dropLit_sound h2
        subst e0 e2
        exact ⟨rfl, by decide⟩
      · exact absurd h (by simp)

/-- Finisher for `(?P<id>\d+)\)`: the maximal digit run must be followed by
a literal `)`, which is consumed. -/
def finParen (ds r : Str) : Option (Str × Str) :=
  match r with
  | ')' :: r2 => some (ds, r2)
  | _ => none

/-- Finisher for `(?P<id>\d+)>`: the maximal digit run must be followed by
a literal `>`, which is consumed. -/
def finGt (ds r : Str) : Option (Str × Str) :=
  match r with
  | '>' :: r2 => some (ds, r2)
  | _ => none

/-- Finisher for `(?P<id>\d+)(?!\))`: when the character after the maximal
digit run is `)`, the `re` engine gives back exactly one digit (the
lookahead then sees a digit); a single digit cannot shrink, so the
alternative fails. -/
def finBare (ds r : Str) : Option (Str × Str) :=
  match r with
  | ')' :: _ =>
    if ds.length ≤ 1 then none
    else some (ds.dropLast, ds.drop (ds.length - 1) ++ r)
  | _ => some (ds, r)

/-- Finisher for a pattern that ends right after `(\d+)` (`TG_POST_ID_RE`,
used with `re.search`): always accepts the maximal run. -/
def finEnd (ds r : Str) : Option (Str × Str) := some (ds, r)


/-- The plain alternative `[\w_]+/(?P<id>\d+)` of the URL tail, followed by
the finisher `fin`. -/
def urlTailPlain (fin : Str → Str → Option (Str × Str)) (r0 : Str) :
    Option (Str × Nat × Str) :=
  match take1While isWordC r0 with
  | none => none
  | some (w, r1) =>
    match r1 with
    | '/' :: r2 =>
      match take1While Char.isDigit r2 with
      | none => none
      | some (ds, r3) =>
        match fin ds r3 with
        | none => none
        | some (ds2, rest) => some (w ++ '/' :: ds2, digitsVal ds2, rest)
    | _ => none

/-- Match `(?:c/\d+/)?[\w_]+/(?P<id>\d+)` followed by the finisher `fin`,
reproducing the engine's preference for taking the optional `c/\d+/` group
greedily and falling back to the plain alternative on any later failure.
Returns the consumed characters, the numeric id and the rest. -/
def urlTail (fin : Str → Str → Option (Str × Str)) (r0 : Str) :
    Option (Str × Nat × Str) :=
  match dropLit ['c', '/'] r0 with
  | none => urlTailPlain fin r0
  | some rA =>
    match take1While Char.isDigit rA with
    | none => urlTailPlain fin r0
    | some (n1, rB) =>
      match rB with
      | '/' :: rC =>
        match take1While isWordC rC with
        | none => urlTailPlain fin r0
        | some (w, rD) =>
          match rD with
          | '/' :: rE =>
            match take1While Char.isDigit rE with
            | none => urlTailPlain fin r0
            | some (ds, rF) =>
              match fin ds rF with
              | none => urlTailPlain fin r0
              | some (ds2, rest) =>
                some ('c' :: '/' :: n1 ++ '/' :: w ++ '/' :: ds2,
                  digitsVal ds2, rest)
          | _ => urlTailPlain fin r0
      | _ => urlTailPlain fin r0

/-- Match the full URL pattern `https?://t\.me/(?:c/\d+/)?[\w_]+/(\d+)`
with the given finisher; returns the URL text (`group("url")`), the id and
the rest. -/
def tgUrlMatch (fin : Str → Str → Option (Str × Str)) (cs : Str) :
    Option (Str × Nat × Str) :=
  match matchScheme cs with
  | none => none
  | some (sch, r0) =>
    match urlTail fin r0 with
    | none => none
    | some (tl, pid, rest) => some (sch ++ tl, pid, rest)

/-- A finisher is `ctx`-sound when accepting rearranges `ds ++ r` into the
kept digits, a fixed consumed context and the rest. -/
def FinSound (fin : Str → Str → Option (Str × Str)) (ctx : Str) : Prop :=
  ∀ ds r ds2 rest, fin ds r = some (ds2, rest) → ds ++ r = ds2 ++ ctx ++ rest

theorem finParen_sound : FinSound finParen [')'] := by
  intro ds r ds2 rest h
  unfold finParen at h
  split at h
  · next r2 => simp_all
  · exact absurd h (by simp)

theorem finGt_sound : FinSound finGt ['>'] := by
  intro ds r ds2 rest h
  unfold finGt at h
  split at h
  · next r2 => simp_all
  · exact absurd h (by simp)

theorem finBare_sound : FinSound finBare [] := by
  intro ds r ds2 rest h
  unfold finBare at h
  split at h
  · next r2 =>
    split at h
    · exact absurd h (by simp)
    · next hlen =>
      obtain ⟨rfl, rfl⟩ :
          ds.dropLast = ds2 ∧ ds.drop (ds.length - 1) ++ (')' :: r2) = rest := by
        simpa using h
      rw [List.append_nil, ← List.append_assoc, List.dropLast_eq_take,
        List.take_append_drop]
  · simp_all

theorem finEnd_sound : FinSound finEnd [] := by
  intro ds r ds2 rest h
  unfold finEnd at h
  obtain ⟨rfl, rfl⟩ : ds = ds2 ∧ r = rest := by simpa using h
  simp

theorem urlTailPlain_sound {fin : Str → Str → Option (Str × Str)} {ctx : Str}
    (hfin : FinSound fin ctx) {r0 tl : Str} {pid : Nat} {rest : Str}
    (h : urlTailPlain fin r0 = some (tl, pid, rest)) :
    r0 = tl ++ ctx ++ rest ∧ tl ≠ [] := by
  unfold urlTailPlain at h
  split at h
  · exact absurd h (by simp)
  · next w r1 hw =>
    split at h
    · next r2 =>
      split at h
      · exact absurd h (by simp)
      · next ds r3 hds =>
        split at h
        · exact absurd h (by simp)
        · next ds2 rest2 hfin2 =>
          obtain ⟨rfl, rfl, rfl⟩ :
              w ++ '/' :: ds2 = tl ∧ digitsVal ds2 = pid ∧ rest2 = rest := by
            simpa using h
          obtain ⟨e1, hw0⟩ := take1While_sound hw
          obtain ⟨e2, -⟩ := take1While_sound hds
          have e3 := hfin _ _ _ _ hfin2
          subst e1
          constructor
          · simp only [List.append_assoc, List.cons_append, List.append_cancel_left_eq]
            rw [e2, e3]
            simp
          · simp [hw0]
    · exact absurd h (by simp)

theorem urlTail_sound {fin : Str → Str → Option (Str × Str)} {ctx : Str}
    (hfin : FinSound fin ctx) {r0 tl : Str} {pid : Nat} {rest : Str}
    (h : urlTail fin r0 = some (tl, pid, rest)) :
    r0 = tl ++ ctx ++ rest ∧ tl ≠ [] := by
  unfold urlTail at h
  split at h
  · exact urlTailPlain_sound hfin h
  · next rA hA =>
    split at h
    · exact urlTailPlain_sound hfin h
    · next n1 rB hn1 =>
      split at h
      · next rC =>
        split at h
        · exact urlTailPlain_sound hfin h
        · next w rD hw =>
          split at h
          · next rE =>
            split at h
            · exact urlTailPlain_sound hfin h
            · next ds rF hds =>
              split at h
              · exact urlTailPlain_sound hfin h
              · next ds2 rest2 hfin2 =>
                obtain ⟨rfl, rfl, rfl⟩ :
                    'c' :: '/' :: n1 ++ '/' :: w ++ '/' :: ds2 = tl ∧
                      digitsVal ds2 = pid ∧ rest2 = rest := by
                  simpa using h
                have eA := dropLit_sound hA
                obtain ⟨e1, -⟩ := take1While_sound hn1
                obtain ⟨e2, -⟩ := take1While_sound hw
                obtain ⟨e3, -⟩ := take1While_sound hds
                have e4 := hfin _ _ _ _ hfin2
                constructor
                · rw [eA, e1, e2, e3, e4]
                  simp
                · simp
          · exact urlTailPlain_sound hfin h
      · exact urlTailPlain_sound hfin h

theorem tgUrlMatch_sound {fin : Str → Str → Option (Str × Str)} {ctx : Str}
    (hfin : FinSound fin ctx) {cs url : Str} {pid : Nat} {rest : Str}
    (h : tgUrlMatch fin cs = some (url, pid, rest)) :
    cs = url ++ ctx ++ rest ∧ url ≠ [] := by
  unfold tgUrlMatch at h
  split at h
  · exact absurd h (by simp)
  · next sch r0 hs =>
    split at h
    · exact absurd h (by simp)
    · next tl pid2 rest2 ht =>
      obtain ⟨rfl, rfl, rfl⟩ : sch ++ tl = url ∧ pid2 = pid ∧ rest2 = rest := by
        simpa using h
      obtain ⟨es, hs0⟩ := matchScheme_sound hs
      obtain ⟨et, ht0⟩ := urlTail_sound hfin ht
      subst es
      constructor
      · rw [et]; simp
      · simp [hs0]

/-- Match of `TG_MD_LINK_RE` at the head of the string: returns
`(text, url, id, rest)`. -/
def mdMatch (cs : Str) : Option (Str × Str × Nat × Str) :=
  match cs with
  | '[' :: r =>
    if (r.takeWhile (· != ']')).isEmpty then none
    else
      match r.dropWhile (· != ']') with
      | ']' :: '(' :: r2 =>
        (tgUrlMatch finParen r2).map fun (url, pid, rest) =>
          (r.takeWhile (· != ']'), url, pid, rest)
      | _ => none
  | _ => none

/-- Match of `TG_AUTOLINK_RE` at the head of the string. -/
def autoMatch (cs : Str) : Option (Str × Nat × Str) :=
  match cs with
  | '<' :: r => tgUrlMatch finGt r
  | _ => none

/-- Match of the URL part of `TG_BARE_URL_RE` at the head of the string
(the one-character lookbehinds are checked by the scanner). -/
def bareMatch (cs : Str) : Option (Str × Nat × Str) := tgUrlMatch finBare cs

theorem mdMatch_sound {cs text url : Str} {pid : Nat} {rest : Str}
    (h : mdMatch cs = some (text, url, pid, rest)) :
    cs = '[' :: text ++ ']' :: '(' :: url ++ ')' :: rest := by
  unfold mdMatch at h
  split at h
  · next r =>
    split at h
    · exact absurd h (by simp)
    · next hne =>
      split at h
      · next r2 hdw =>
        rw [Option.map_eq_some'] at h
        obtain ⟨⟨url2, pid2, rest2⟩, hu, hval⟩ := h
        obtain ⟨rfl, rfl, rfl, rfl⟩ :
            r.takeWhile (· != ']') = text ∧ url2 = url ∧ pid2 = pid ∧ rest2 = rest := by
          simpa using hval
        obtain ⟨e2, -⟩ := tgUrlMatch_sound finParen_sound hu
        have er : r = r.takeWhile (· != ']') ++ (']' :: '(' :: r2) := by
          rw [← hdw]
          exact (List.takeWhile_append_dropWhile _ r).symm
        conv_lhs => rw [er]
        rw [e2]
        simp
      · exact absurd h (by simp)
  · exact absurd h (by simp)

theorem autoMatch_sound {cs url : Str} {pid : Nat} {rest : Str}
    (h : autoMatch cs = some (url, pid, rest)) :
    cs = '<' :: url ++ '>' :: rest := by
  unfold autoMatch at h
  split at h
  · next r =>
    obtain ⟨e, -⟩ := tgUrlMatch_sound finGt_sound h
    rw [e]
    simp
  · exact absurd h (by simp)

theorem bareMatch_sound {cs url : Str} {pid : Nat} {rest : Str}
    (h : bareMatch cs = some (url, pid, rest)) :
    cs = url ++ rest ∧ url ≠ [] := by
  have := tgUrlMatch_sound finBare_sound h
  simpa using this

/-- `]({{< relref "` — opening of the Hugo relref construct produced by the
rewriter (the doubled braces of the Python f-string collapse to single
ones). -/
def relrefOpen : Str := "](\x7b\x7b< relref \"".toList

/-- `" >}})` — closing of the relref construct. -/
def relrefClose : Str := "\" >\x7d\x7d)".toList

/-- `f'[{label}]({{{{< relref "{rel}" >}}}})'`. -/
def relrefLink (label rel : Str) : Str :=
  '[' :: label ++ relrefOpen ++ rel ++ relrefClose

/-- `match.group(0)` of an `TG_MD_LINK_RE` match. -/
def mdGroup0 (text url : Str) : Str := '[' :: text ++ ']' :: '(' :: url ++ [')']

/-- `match.group(0)` of an `TG_AUTOLINK_RE` match. -/
def autoGroup0 (url : Str) : Str := '<' :: url ++ ['>']

/-- `_sub_md` from `rewrite_internal_links`: keep the match when the id is
not mapped (or maps to a falsy empty string), else produce the relref link
with the original label. -/
def mdReplace (m : Nat → Option Str) (text url : Str) (pid : Nat) : Str :=
  match m pid with
  | none => mdGroup0 text url
  | some rel => if rel.isEmpty then mdGroup0 text url else relrefLink text rel

/-- `_sub_auto`: the URL text becomes the label. -/
def autoReplace (m : Nat → Option Str) (url : Str) (pid : Nat) : Str :=
  match m pid with
  | none => autoGroup0 url
  | some rel => if rel.isEmpty then autoGroup0 url else relrefLink url rel

/-- `_sub_bare`: the URL text becomes the label. -/
def bareReplace (m : Nat → Option Str) (url : Str) (pid : Nat) : Str :=
  match m pid with
  | none => url
  | some rel => if rel.isEmpty then url else relrefLink url rel

/-- One `re.sub` scan for `TG_MD_LINK_RE`: try a match at every position,
emit the replacement and continue after the match.  `fuel` bounds the
number of scan steps; the string's length is always enough. -/
def subMdGo (m : Nat → Option Str) : Nat → Str → Str
  | 0, cs => cs
  | _ + 1, [] => []
  | fuel + 1, c :: cs =>
    match mdMatch (c :: cs) with
    | some (text, url, pid, rest) => mdReplace m text url pid ++ subMdGo m fuel rest
    | none => c :: subMdGo m fuel cs

/-- `TG_MD_LINK_RE.sub(_sub_md, cs)`. -/
def subMd (m : Nat → Option Str) (cs : Str) : Str := subMdGo m cs.length cs

/-- One `re.sub` scan for `TG_AUTOLINK_RE`. -/
def subAutoGo (m : Nat → Option Str) : Nat → Str → Str
  | 0, cs => cs
  | _ + 1, [] => []
  | fuel + 1, c :: cs =>
    match autoMatch (c :: cs) with
    | some (url, pid, rest) => autoReplace m url pid ++ subAutoGo m fuel rest
    | none => c :: subAutoGo m fuel cs

/-- `TG_AUTOLINK_RE.sub(_sub_auto, cs)`. -/
def subAuto (m : Nat → Option Str) (cs : Str) : Str := subAutoGo m cs.length cs

/-- The two single-character negative lookbehinds `(?<!\()(?<!<)` of
`TG_BARE_URL_RE`, checked against the previous character of the input. -/
def lookbehindOk (prev : Option Char) : Bool :=
  prev != some '(' && prev != some '<'

/-- One `re.sub` scan for `TG_BARE_URL_RE`, threading the previous input
character for the lookbehinds. -/
def subBareGo (m : Nat → Option Str) : Nat → Option Char → Str → Str
  | 0, _, cs => cs
  | _ + 1, _, [] => []
  | fuel + 1, prev, c :: cs =>
    if lookbehindOk prev then
      match bareMatch (c :: cs) with
      | some (url, pid, rest) =>
        bareReplace m url pid ++ subBareGo m fuel url.getLast? rest
      | none => c :: subBareGo m fuel (some c) cs
    else c :: subBareGo m fuel (some c) cs

/-- `TG_BARE_URL_RE.sub(_sub_bare, cs)`. -/
def subBare (m : Nat → Option Str) (cs : Str) : Str := subBareGo m cs.length none cs

/-- `rewrite_internal_links(md, id2relref)` from `tg2hugo.py`: the three
substitution passes in source order, each over the previous result. -/
def rewrite_internal_links (m : Nat → Option Str) (md : Str) : Str :=
  subBare m (subAuto m (subMd m md))

/-- Ids of all `TG_MD_LINK_RE` matches fired during the scan (match
positions do not depend on the identifier map). -/
def mdIdsGo : Nat → Str → List Nat
  | 0, _ => []
  | _ + 1, [] => []
  | fuel + 1, c :: cs =>
    match mdMatch (c :: cs) with
    | some (_, _, pid, rest) => pid :: mdIdsGo fuel rest
    | none => mdIdsGo fuel cs

/-- Ids of all `TG_MD_LINK_RE` matches in `cs`. -/
def mdIds (cs : Str) : List Nat := mdIdsGo cs.length cs

/-- Ids of all `TG_AUTOLINK_RE` matches fired during the scan. -/
def autoIdsGo : Nat → Str → List Nat
  | 0, _ => []
  | _ + 1, [] => []
  | fuel + 1, c :: cs =>
    match autoMatch (c :: cs) with
    | some (_, pid, rest) => pid :: autoIdsGo fuel rest
    | none => autoIdsGo fuel cs

/-- Ids of all `TG_AUTOLINK_RE` matches in `cs`. -/
def autoIds (cs : Str) : List Nat := autoIdsGo cs.length cs

/-- Ids of all `TG_BARE_URL_RE` matches fired during the scan. -/
def bareIdsGo : Nat → Option Char → Str → List Nat
  | 0, _, _ => []
  | _ + 1, _, [] => []
  | fuel + 1, prev, c :: cs =>
    if lookbehindOk prev then
      match bareMatch (c :: cs) with
      | some (url, pid, rest) => pid :: bareIdsGo fuel url.getLast? rest
      | none => bareIdsGo fuel (some c) cs
    else bareIdsGo fuel (some c) cs

/-- Ids of all `TG_BARE_URL_RE` matches in `cs`. -/
def bareIds (cs : Str) : List Nat := bareIdsGo cs.length none cs

theorem matchScheme_cases {cs sch r : Str} (h : matchScheme cs = some (sch, r)) :
    sch = "https://t.me/".toList ∨ sch = "http://t.me/".toList := by
  unfold matchScheme at h
  split at h
  · exact absurd h (by simp)
  · split at h
    · next r2 heq =>
      left
      have h2 : "https://t.me/".toList = sch ∧ r2 = r := by simpa using h
      exact h2.1.symm
    · split at h
      · next r2 heq =>
        right
        have h2 : "http://t.me/".toList = sch ∧ r2 = r := by simpa using h
        exact h2.1.symm
      · exact absurd h (by simp)

theorem tgUrlMatch_nonspace {fin : Str → Str → Option (Str × Str)}
    {cs url : Str} {pid : Nat} {rest : Str}
    (h : tgUrlMatch fin cs = some (url, pid, rest)) :
    ∃ c ∈ url, isPySpace c = false := by
  unfold tgUrlMatch at h
  split at h
  · exact absurd h (by simp)
  · next sch r0 hs =>
    split at h
    · exact absurd h (by simp)
    · next tl pid2 rest2 ht =>
      obtain ⟨rfl, -, -⟩ : sch ++ tl = url ∧ pid2 = pid ∧ rest2 = rest := by
        simpa using h
      refine ⟨'h', ?_, by decide⟩
      rcases matchScheme_cases hs with h2 | h2 <;> subst h2 <;> simp

theorem subMdGo_id (m : Nat → Option Str) (fuel : Nat) (cs : Str)
    (h : ∀ pid ∈ mdIdsGo fuel cs, m pid = none) : subMdGo m fuel cs = cs := by
  induction fuel generalizing cs with
  | zero => rfl
  | succ f ih =>
    cases cs with
    | nil => rfl
    | cons c cs2 =>
      simp only [subMdGo, mdIdsGo] at h ⊢
      cases hm : mdMatch (c :: cs2) with
      | none =>
        simp only [hm] at h ⊢
        rw [ih cs2 h]
      | some val =>
        obtain ⟨text, url, pid, rest⟩ := val
        simp only [hm] at h ⊢
        have hpid : m pid = none := h pid (by simp)
        have hrest : ∀ q ∈ mdIdsGo f rest, m q = none := fun q hq => h q (by simp [hq])
        rw [ih rest hrest, mdReplace, hpid]
        have hs := mdMatch_sound hm
        rw [hs]
        simp [mdGroup0]

theorem subAutoGo_id (m : Nat → Option Str) (fuel : Nat) (cs : Str)
    (h : ∀ pid ∈ autoIdsGo fuel cs, m pid = none) : subAutoGo m fuel cs = cs := by
  induction fuel generalizing cs with
  | zero => rfl
  | succ f ih =>
    cases cs with
    | nil => rfl
    | cons c cs2 =>
      simp only [subAutoGo, autoIdsGo] at h ⊢
      cases hm : autoMatch (c :: cs2) with
      | none =>
        simp only [hm] at h ⊢
        rw [ih cs2 h]
      | some val =>
        obtain ⟨url, pid, rest⟩ := val
        simp only [hm] at h ⊢
        have hpid : m pid = none := h pid (by simp)
        have hrest : ∀ q ∈ autoIdsGo f rest, m q = none := fun q hq => h q (by simp [hq])
        rw [ih rest hrest, autoReplace, hpid]
        have hs := autoMatch_sound hm
        rw [hs]
        simp [autoGroup0]

theorem subBareGo_id (m : Nat → Option Str) (fuel : Nat) (prev : Option Char) (cs : Str)
    (h : ∀ pid ∈ bareIdsGo fuel prev cs, m pid = none) : subBareGo m fuel prev cs = cs := by
  induction fuel generalizing prev cs with
  | zero => rfl
  | succ f ih =>
    cases cs with
    | nil => rfl
    | cons c cs2 =>
      simp only [subBareGo, bareIdsGo] at h ⊢
      by_cases hlb : lookbehindOk prev = true
      · rw [if_pos hlb] at h ⊢
        cases hm : bareMatch (c :: cs2) with
        | none =>
          simp only [hm] at h ⊢
          rw [ih (some c) cs2 h]
        | some val =>
          obtain ⟨url, pid, rest⟩ := val
          simp only [hm] at h ⊢
          have hpid : m pid = none := h pid (by simp)
          have hrest : ∀ q ∈ bareIdsGo f url.getLast? rest, m q = none :=
            fun q hq => h q (by simp [hq])
          rw [ih url.getLast? rest hrest, bareReplace, hpid]
          exact (bareMatch_sound hm).1.symm
      · rw [if_neg hlb] at h ⊢
        rw [ih (some c) cs2 h]

/-- A piece of a substitution scan: either a character copied through
unchanged, or a fired match `hit orig pid out` — the matched text
(`group(0)`), its extracted id and the emitted replacement. -/
inductive ScanPiece where
  | lit : Char → ScanPiece
  | hit : Str → Nat → Str → ScanPiece
deriving DecidableEq

/-- The input text a piece covers. -/
def pieceInput : ScanPiece → Str
  | .lit c => [c]
  | .hit orig _ _ => orig

/-- The output text a piece emits. -/
def pieceOutput : ScanPiece → Str
  | .lit c => [c]
  | .hit _ _ out => out

/-- Concatenated inputs of a piece list. -/
def piecesInput (ps : List ScanPiece) : Str := (ps.map pieceInput).flatten

/-- Concatenated outputs of a piece list. -/
def piecesOutput (ps : List ScanPiece) : Str := (ps.map pieceOutput).flatten

/-- Trace of the `TG_MD_LINK_RE` scan: the same recursion as `subMdGo`,
recording each copied character and each fired match. -/
def mdPiecesGo (m : Nat → Option Str) : Nat → Str → List ScanPiece
  | 0, cs => cs.map ScanPiece.lit
  | _ + 1, [] => []
  | fuel + 1, c :: cs =>
    match mdMatch (c :: cs) with
    | some (text, url, pid, rest) =>
      ScanPiece.hit (mdGroup0 text url) pid (mdReplace m text url pid) ::
        mdPiecesGo m fuel rest
    | none => ScanPiece.lit c :: mdPiecesGo m fuel cs

/-- Trace of `subMd`. -/
def mdPieces (m : Nat → Option Str) (cs : Str) : List ScanPiece :=
  mdPiecesGo m cs.length cs

/-- Trace of the `TG_AUTOLINK_RE` scan. -/
def autoPiecesGo (m : Nat → Option Str) : Nat → Str → List ScanPiece
  | 0, cs => cs.map ScanPiece.lit
  | _ + 1, [] => []
  | fuel + 1, c :: cs =>
    match autoMatch (c :: cs) with
    | some (url, pid, rest) =>
      ScanPiece.hit (autoGroup0 url) pid (autoReplace m url pid) ::
        autoPiecesGo m fuel rest
    | none => ScanPiece.lit c :: autoPiecesGo m fuel cs

/-- Trace of `subAuto`. -/
def autoPieces (m : Nat → Option Str) (cs : Str) : List ScanPiece :=
  autoPiecesGo m cs.length cs

/-- Trace of the `TG_BARE_URL_RE` scan, threading the lookbehind state. -/
def barePiecesGo (m : Nat → Option Str) : Nat → Option Char → Str → List ScanPiece
  | 0, _, cs => cs.map ScanPiece.lit
  | _ + 1, _, [] => []
  | fuel + 1, prev, c :: cs =>
    if lookbehindOk prev then
      match bareMatch (c :: cs) with
      | some (url, pid, rest) =>
        ScanPiece.hit url pid (bareReplace m url pid) ::
          barePiecesGo m fuel url.getLast? rest
      | none => ScanPiece.lit c :: barePiecesGo m fuel (some c) cs
    else ScanPiece.lit c :: barePiecesGo m fuel (some c) cs

/-- Trace of `subBare`. -/
def barePieces (m : Nat → Option Str) (cs : Str) : List ScanPiece :=
  barePiecesGo m cs.length none cs

theorem piecesInput_lit (cs : Str) : piecesInput (cs.map ScanPiece.lit) = cs := by
  induction cs with
  | nil => rfl
  | cons c rest ih =>
    simp only [piecesInput, List.map_cons, List.flatten_cons] at ih ⊢
    rw [ih]
    rfl

theorem piecesOutput_lit (cs : Str) : piecesOutput (cs.map ScanPiece.lit) = cs := by
  induction cs with
  | nil => rfl
  | cons c rest ih =>
    simp only [piecesOutput, List.map_cons, List.flatten_cons] at ih ⊢
    rw [ih]
    rfl

theorem mdPiecesGo_input (m : Nat → Option Str) (fuel : Nat) (cs : Str) :
    piecesInput (mdPiecesGo m fuel cs) = cs := by
  induction fuel generalizing cs with
  | zero => exact piecesInput_lit cs
  | succ f ih =>
    cases cs with
    | nil => rfl
    | cons c cs2 =>
      simp only [mdPiecesGo]
      cases hm : mdMatch (c :: cs2) with
      | none =>
        simp only [piecesInput, List.map_cons, List.flatten_cons, pieceInput]
        have := ih cs2
        simp only [piecesInput] at this
        rw [this]
        rfl
      | some val =>
        obtain ⟨text, url, pid, rest⟩ := val
        simp only [piecesInput, List.map_cons, List.flatten_cons, pieceInput]
        have := ih rest
        simp only [piecesInput] at this
        rw [this, mdMatch_sound hm]
        simp [mdGroup0]

theorem mdPiecesGo_output (m : Nat → Option Str) (fuel : Nat) (cs : Str) :
    piecesOutput (mdPiecesGo m fuel cs) = subMdGo m fuel cs := by
  induction fuel generalizing cs with
  | zero => exact piecesOutput_lit cs
  | succ f ih =>
    cases cs with
    | nil => rfl
    | cons c cs2 =>
      simp only [mdPiecesGo, subMdGo]
      cases hm : mdMatch (c :: cs2) with
      | none =>
        simp only [piecesOutput, List.map_cons, List.flatten_cons, pieceOutput]
        have := ih cs2
        simp only [piecesOutput] at this
        rw [this]
        rfl
      | some val =>
        obtain ⟨text, url, pid, rest⟩ := val
        simp only [piecesOutput, List.map_cons, List.flatten_cons, pieceOutput]
        have := ih rest
        simp only [piecesOutput] at this
        rw [this]

theorem mdPiecesGo_unmapped (m : Nat → Option Str) (fuel : Nat) (cs : Str) :
    ∀ orig pid out, ScanPiece.hit orig pid out ∈ mdPiecesGo m fuel cs →
      m pid = none → out = orig := by
  induction fuel generalizing cs with
  | zero =>
    intro orig pid out hmem _
    exfalso
    obtain ⟨c, -, heq⟩ := List.mem_map.mp hmem
    exact ScanPiece.noConfusion heq
  | succ f ih =>
    cases cs with
    | nil => intro orig pid out hmem _; simp [mdPiecesGo] at hmem
    | cons c cs2 =>
      intro orig pid out hmem hpid
      simp only [mdPiecesGo] at hmem
      cases hm : mdMatch (c :: cs2) with
      | none =>
        rw [hm] at hmem
        rcases List.mem_cons.mp hmem with heq | htail
        · exact absurd heq.symm (by intro h; exact ScanPiece.noConfusion h)
        · exact ih cs2 orig pid out htail hpid
      | some val =>
        obtain ⟨text, url, pid2, rest⟩ := val
        rw [hm] at hmem
        rcases List.mem_cons.mp hmem with heq | htail
        · obtain ⟨ho, hp, hout⟩ :
              mdGroup0 text url = orig ∧ pid2 = pid ∧ mdReplace m text url pid2 = out := by
            cases heq
            exact ⟨rfl, rfl, rfl⟩
          subst ho hp
          rw [← hout]
          unfold mdReplace
          rw [hpid]
        · exact ih rest orig pid out htail hpid

theorem autoPiecesGo_input (m : Nat → Option Str) (fuel : Nat) (cs : Str) :
    piecesInput (autoPiecesGo m fuel cs) = cs := by
  induction fuel generalizing cs with
  | zero => exact piecesInput_lit cs
  | succ f ih =>
    cases cs with
    | nil => rfl
    | cons c cs2 =>
      simp only [autoPiecesGo]
      cases hm : autoMatch (c :: cs2) with
      | none =>
        simp only [piecesInput, List.map_cons, List.flatten_cons, pieceInput]
        have := ih cs2
        simp only [piecesInput] at this
        rw [this]
        rfl
      | some val =>
        obtain ⟨url, pid, rest⟩ := val
        simp only [piecesInput, List.map_cons, List.flatten_cons, pieceInput]
        have := ih rest
        simp only [piecesInput] at this
        rw [this, autoMatch_sound hm]
        simp [autoGroup0]

theorem autoPiecesGo_output (m : Nat → Option Str) (fuel : Nat) (cs : Str) :
    piecesOutput (autoPiecesGo m fuel cs) = subAutoGo m fuel cs := by
  induction fuel generalizing cs with
  | zero => exact piecesOutput_lit cs
  | succ f ih =>
    cases cs with
    | nil => rfl
    | cons c cs2 =>
      simp only [autoPiecesGo, subAutoGo]
      cases hm : autoMatch (c :: cs2) with
      | none =>
        simp only [piecesOutput, List.map_cons, List.flatten_cons, pieceOutput]
        have := ih cs2
        simp only [piecesOutput] at this
        rw [this]
        rfl
      | some val =>
        obtain ⟨url, pid, rest⟩ := val
        simp only [piecesOutput, List.map_cons, List.flatten_cons, pieceOutput]
        have := ih rest
        simp only [piecesOutput] at this
        rw [this]

theorem autoPiecesGo_unmapped (m : Nat → Option Str) (fuel : Nat) (cs : Str) :
    ∀ orig pid out, ScanPiece.hit orig pid out ∈ autoPiecesGo m fuel cs →
      m pid = none → out = orig := by
  induction fuel generalizing cs with
  | zero =>
    intro orig pid out hmem _
    exfalso
    obtain ⟨c, -, heq⟩ := List.mem_map.mp hmem
    exact ScanPiece.noConfusion heq
  | succ f ih =>
    cases cs with
    | nil => intro orig pid out hmem _; simp [autoPiecesGo] at hmem
    | cons c cs2 =>
      intro orig pid out hmem hpid
      simp only [autoPiecesGo] at hmem
      cases hm : autoMatch (c :: cs2) with
      | none =>
        rw [hm] at hmem
        rcases List.mem_cons.mp hmem with heq | htail
        · exact absurd heq.symm (by intro h; exact ScanPiece.noConfusion h)
        · exact ih cs2 orig pid out htail hpid
      | some val =>
        obtain ⟨url, pid2, rest⟩ := val
        rw [hm] at hmem
        rcases List.mem_cons.mp hmem with heq | htail
        · obtain ⟨ho, hp, hout⟩ :
              autoGroup0 url = orig ∧ pid2 = pid ∧ autoReplace m url pid2 = out := by
            cases heq
            exact ⟨rfl, rfl, rfl⟩
          subst ho hp
          rw [← hout]
          unfold autoReplace
          rw [hpid]
        · exact ih rest orig pid out htail hpid

theorem barePiecesGo_input (m : Nat → Option Str) (fuel : Nat) (prev : Option Char)
    (cs : Str) : piecesInput (barePiecesGo m fuel prev cs) = cs := by
  induction fuel generalizing prev cs with
  | zero => exact piecesInput_lit cs
  | succ f ih =>
    cases cs with
    | nil => rfl
    | cons c cs2 =>
      simp only [barePiecesGo]
      by_cases hlb : lookbehindOk prev = true
      · rw [if_pos hlb]
        cases hm : bareMatch (c :: cs2) with
        | none =>
          simp only [piecesInput, List.map_cons, List.flatten_cons, pieceInput]
          have := ih (some c) cs2
          simp only [piecesInput] at this
          rw [this]
          rfl
        | some val =>
          obtain ⟨url, pid, rest⟩ := val
          simp only [piecesInput, List.map_cons, List.flatten_cons, pieceInput]
          have := ih url.getLast? rest
          simp only [piecesInput] at this
          rw [this, (bareMatch_sound hm).1]
      · rw [if_neg hlb]
        simp only [piecesInput, List.map_cons, List.flatten_cons, pieceInput]
        have := ih (some c) cs2
        simp only [piecesInput] at this
        rw [this]
        rfl

theorem barePiecesGo_output (m : Nat → Option Str) (fuel : Nat) (prev : Option Char)
    (cs : Str) : piecesOutput (barePiecesGo m fuel prev cs) = subBareGo m fuel prev cs := by
  induction fuel generalizing prev cs with
  | zero => exact piecesOutput_lit cs
  | succ f ih =>
    cases cs with
    | nil => rfl
    | cons c cs2 =>
      simp only [barePiecesGo, subBareGo]
      by_cases hlb : lookbehindOk prev = true
      · rw [if_pos hlb, if_pos hlb]
        cases hm : bareMatch (c :: cs2) with
        | none =>
          simp only [piecesOutput, List.map_cons, List.flatten_cons, pieceOutput]
          have := ih (some c) cs2
          simp only [piecesOutput] at this
          rw [this]
          rfl
        | some val =>
          obtain ⟨url, pid, rest⟩ := val
          simp only [piecesOutput, List.map_cons, List.flatten_cons, pieceOutput]
          have := ih url.getLast? rest
          simp only [piecesOutput] at this
          rw [this]
      · rw [if_neg hlb, if_neg hlb]
        simp only [piecesOutput, List.map_cons, List.flatten_cons, pieceOutput]
        have := ih (some c) cs2
        simp only [piecesOutput] at this
        rw [this]
        rfl

theorem barePiecesGo_unmapped (m : Nat → Option Str) (fuel : Nat) (prev : Option Char)
    (cs : Str) :
    ∀ orig pid out, ScanPiece.hit orig pid out ∈ barePiecesGo m fuel prev cs →
      m pid = none → out = orig := by
  induction fuel generalizing prev cs with
  | zero =>
    intro orig pid out hmem _
    exfalso
    obtain ⟨c, -, heq⟩ := List.mem_map.mp hmem
    exact ScanPiece.noConfusion heq
  | succ f ih =>
    cases cs with
    | nil => intro orig pid out hmem _; simp [barePiecesGo] at hmem
    | cons c cs2 =>
      intro orig pid out hmem hpid
      simp only [barePiecesGo] at hmem
      by_cases hlb : lookbehindOk prev = true
      · rw [if_pos hlb] at hmem
        cases hm : bareMatch (c :: cs2) with
        | none =>
          rw [hm] at hmem
          rcases List.mem_cons.mp hmem with heq | htail
          · exact absurd heq.symm (by intro h; exact ScanPiece.noConfusion h)
          · exact ih (some c) cs2 orig pid out htail hpid
        | some val =>
          obtain ⟨url, pid2, rest⟩ := val
          rw [hm] at hmem
          rcases List.mem_cons.mp hmem with heq | htail
          · obtain ⟨ho, hp, hout⟩ :
                url = orig ∧ pid2 = pid ∧ bareReplace m url pid2 = out := by
              cases heq
              exact ⟨rfl, rfl, rfl⟩
            subst ho hp
            rw [← hout]
            unfold bareReplace
            rw [hpid]
          · exact ih url.getLast? rest orig pid out htail hpid
      · rw [if_neg hlb] at hmem
        rcases List.mem_cons.mp hmem with heq | htail
        · exact absurd heq.symm (by intro h; exact ScanPiece.noConfusion h)
        · exact ih (some c) cs2 orig pid out htail hpid

/-- Claim C5: for every map, each of the three passes decomposes its input
into copied characters and fired matches (`piecesInput` recovers the
input), emits exactly the concatenation of the pieces' outputs
(`piecesOutput` is the pass's result), and every fired match whose
extracted identifier is not a key of the map is replaced by its own
`group(0)` — left character-for-character unchanged in place, also in
texts that mix mapped and unmapped references.  In particular, when no
matched identifier is in the map, `rewrite_internal_links` returns its
input unchanged — no partial rewrite and no failure (final conjunct). -/
theorem rewrite_internal_links_unmapped_id (m : Nat → Option Str) (md : Str) :
    (piecesInput (mdPieces m md) = md ∧
     piecesOutput (mdPieces m md) = subMd m md ∧
     ∀ orig pid out, ScanPiece.hit orig pid out ∈ mdPieces m md →
       m pid = none → out = orig) ∧
    (piecesInput (autoPieces m (subMd m md)) = subMd m md ∧
     piecesOutput (autoPieces m (subMd m md)) = subAuto m (subMd m md) ∧
     ∀ orig pid out, ScanPiece.hit orig pid out ∈ autoPieces m (subMd m md) →
       m pid = none → out = orig) ∧
    (piecesInput (barePieces m (subAuto m (subMd m md))) = subAuto m (subMd m md) ∧
     piecesOutput (barePieces m (subAuto m (subMd m md))) =
       rewrite_internal_links m md ∧
     ∀ orig pid out,
       ScanPiece.hit orig pid out ∈ barePieces m (subAuto m (subMd m md)) →
       m pid = none → out = orig) ∧
    ((∀ pid ∈ mdIds md, m pid = none) → (∀ pid ∈ autoIds md, m pid = none) →
     (∀ pid ∈ bareIds md, m pid = none) → rewrite_internal_links m md = md) := by
  refine ⟨⟨mdPiecesGo_input m md.length md, mdPiecesGo_output m md.length md,
      mdPiecesGo_unmapped m md.length md⟩,
    ⟨autoPiecesGo_input m _ _, autoPiecesGo_output m _ _,
      autoPiecesGo_unmapped m _ _⟩,
    ⟨barePiecesGo_input m _ none _, barePiecesGo_output m _ none _,
      barePiecesGo_unmapped m _ none _⟩, ?_⟩
  intro h1 h2 h3
  unfold rewrite_internal_links
  rw [show subMd m md = md from subMdGo_id m md.length md h1,
    show subAuto m md = md from subAutoGo_id m md.length md h2]
  exact subBareGo_id m md.length none md h3

/-- Witness for C5 on a text mixing a mapped and an unmapped reference
(`{5 ↦ blog/a.md}`, ids 5 and 6 present): the scan of the final pass fires
the unmapped bare match for id 6 with its replacement equal to its own
text, the pieces concatenate to the full rewrite, and in the result the
mapped link is rewritten while `https://t.me/ch/6` survives verbatim; the
final conjunct instantiates the all-unmapped corollary. -/
theorem rewrite_internal_links_unmapped_id_witness :
    piecesOutput (barePieces
        (fun i => if i == 5 then some ("blog/a.md".toList) else none)
        (subAuto (fun i => if i == 5 then some ("blog/a.md".toList) else none)
          (subMd (fun i => if i == 5 then some ("blog/a.md".toList) else none)
            ("x [a](https://t.me/ch/5) y https://t.me/ch/6 z".toList)))) =
      rewrite_internal_links
        (fun i => if i == 5 then some ("blog/a.md".toList) else none)
        ("x [a](https://t.me/ch/5) y https://t.me/ch/6 z".toList) ∧
    ScanPiece.hit ("https://t.me/ch/6".toList) 6 ("https://t.me/ch/6".toList) ∈
      barePieces (fun i => if i == 5 then some ("blog/a.md".toList) else none)
        (subAuto (fun i => if i == 5 then some ("blog/a.md".toList) else none)
          (subMd (fun i => if i == 5 then some ("blog/a.md".toList) else none)
            ("x [a](https://t.me/ch/5) y https://t.me/ch/6 z".toList))) ∧
    rewrite_internal_links
        (fun i => if i == 5 then some ("blog/a.md".toList) else none)
        ("x [a](https://t.me/ch/5) y https://t.me/ch/6 z".toList) =
      "x [a](\x7b\x7b< relref \"blog/a.md\" >\x7d\x7d) y https://t.me/ch/6 z".toList ∧
    rewrite_internal_links
        (fun i => if i == 5 then some ("blog/a.md".toList) else none)
        ("see <https://t.me/chan/77> and https://t.me/chan/77".toList) =
      "see <https://t.me/chan/77> and https://t.me/chan/77".toList := by
  refine ⟨(rewrite_internal_links_unmapped_id
      (fun i => if i == 5 then some ("blog/a.md".toList) else none)
      ("x [a](https://t.me/ch/5) y https://t.me/ch/6 z".toList)).2.2.1.2.1,
    by decide, by decide,
    (rewrite_internal_links_unmapped_id
      (fun i => if i == 5 then some ("blog/a.md".toList) else none)
      ("see <https://t.me/chan/77> and https://t.me/chan/77".toList)).2.2.2
      (by decide) (by decide) (by decide)⟩

/-- Claim C1 (refuted — code bug): cross-reference rewriting is not
idempotent.  On the bare URL `https://t.me/ch/5` with `5` mapped, the first
application produces a markdown link whose visible label is the original
t.me URL; that label is preceded by `[` and followed by `]`, which the
lookarounds `(?<!\()(?<!<)…(?!\))` of `TG_BARE_URL_RE` do not exclude, so
the second application wraps the label again. -/
theorem rewrite_internal_links_not_idempotent :
    rewrite_internal_links
        (fun i => if i == 5 then some ("blog/d.md".toList) else none)
        ("https://t.me/ch/5".toList) =
      "[https://t.me/ch/5](\x7b\x7b< relref \"blog/d.md\" >\x7d\x7d)".toList ∧
    rewrite_internal_links
        (fun i => if i == 5 then some ("blog/d.md".toList) else none)
        ("[https://t.me/ch/5](\x7b\x7b< relref \"blog/d.md\" >\x7d\x7d)".toList) =
      "[[https://t.me/ch/5](\x7b\x7b< relref \"blog/d.md\" >\x7d\x7d)](\x7b\x7b< relref \"blog/d.md\" >\x7d\x7d)".toList ∧
    rewrite_internal_links
        (fun i => if i == 5 then some ("blog/d.md".toList) else none)
        (rewrite_internal_links
          (fun i => if i == 5 then some ("blog/d.md".toList) else none)
          ("https://t.me/ch/5".toList)) ≠
      rewrite_internal_links
        (fun i => if i == 5 then some ("blog/d.md".toList) else none)
        ("https://t.me/ch/5".toList) := by
  refine ⟨by decide, by decide, ?_⟩
  decide

/-! ### `tg_ids_from_links_list` and the "См. также" fallback -/

/-- `TG_POST_ID_RE.search(url)`: first position where the post-URL pattern
matches; returns the id of that match. -/
def tgPostIdSearch : Str → Option Nat
  | [] => none
  | c :: cs =>
    match tgUrlMatch finEnd (c :: cs) with
    | some (_, pid, _) => some pid
    | none => tgPostIdSearch cs

/-- Order-preserving de-duplication (`seen`/`uniq` loop of
`tg_ids_from_links_list`). -/
def dedupKeepFirst (seen : List Nat) : List Nat → List Nat
  | [] => []
  | i :: rest =>
    if i ∈ seen then dedupKeepFirst seen rest
    else i :: dedupKeepFirst (i :: seen) rest

/-- `tg_ids_from_links_list(links)` from `tg2hugo.py`: extract the post id
of each link URL, keeping first occurrences.  A link item is modelled by
its URL string (`item.get("url") or ""`). -/
def tg_ids_from_links_list (links : List Str) : List Nat :=
  dedupKeepFirst [] (links.filterMap tgPostIdSearch)

/-- Plain alternative `[\w_]+/{pid}\b` of the "См. также" occurrence check
(`rf"t\.me/(?:c/\d+/)?[\w_]+/{pid}\b"`). -/
def tgRefTailPlain (pid : Nat) (r0 : Str) : Bool :=
  match take1While isWordC r0 with
  | none => false
  | some (_, r1) =>
    match r1 with
    | '/' :: r2 =>
      match dropLit (natDigits pid) r2 with
      | none => false
      | some r3 =>
        match r3 with
        | [] => true
        | c :: _ => !(isWordC c)
    | _ => false

/-- The occurrence-check pattern at a fixed position: literal `t.me/`,
optional `c/\d+/` (preferred), channel segment, then the decimal digits of
`pid` at a word boundary. -/
def tgRefAt (pid : Nat) (cs : Str) : Bool :=
  match dropLit ("t.me/".toList) cs with
  | none => false
  | some r0 =>
    (match dropLit ['c', '/'] r0 with
      | none => false
      | some rA =>
        match take1While Char.isDigit rA with
        | none => false
        | some (_, rB) =>
          match rB with
          | '/' :: rC => tgRefTailPlain pid rC
          | _ => false) ||
    tgRefTailPlain pid r0

/-- `re.search(rf"t\.me/(?:c/\d+/)?[\w_]+/{pid}\b", body)` as a Boolean. -/
def searchTgRef (pid : Nat) : Str → Bool
  | [] => false
  | c :: cs => tgRefAt pid (c :: cs) || searchTgRef pid cs

/-- `f'- {{< relref "{rel}" >}}'` — note the braces are doubled only once
in the Python source, so the emitted entry has single braces. -/
def seeAlsoEntry (rel : Str) : Str :=
  "- \x7b< relref \"".toList ++ rel ++ "\" >\x7d".toList

/-- The `extras` loop of `convert_one_with_links`: one entry per link id
that is a key of the map and whose canonical URL pattern does not occur in
the body. -/
def seeAlsoExtras (m : Nat → Option Str) (body : Str) (linkIds : List Nat) :
    List Str :=
  linkIds.filterMap fun pid =>
    match m pid with
    | none => none
    | some rel => if searchTgRef pid body then none else some (seeAlsoEntry rel)

/-- Lines 568–587 of `tg2hugo.py` (`convert_one_with_links`): rewrite the
body, rewrite it again, and only when the second application changed
nothing append the "См. также" block built from the export's `links`. -/
def appendSeeAlso (m : Nat → Option Str) (body : Str) (links : List Str) : Str :=
  let b1 := rewrite_internal_links m body
  let b2 := rewrite_internal_links m b1
  if b2 == b1 then
    let extras := seeAlsoExtras m b2 (tg_ids_from_links_list links)
    if extras.isEmpty then b2
    else b2 ++ "\n\n**См. также:**\n".toList ++ List.intercalate ['\n'] extras ++ ['\n']
  else b2

/-- Claim C3 (refuted — code bug): the "См. также" fallback is guarded by
an additional condition the claim (and spec) do not state: the block is
only considered when a second application of `rewrite_internal_links`
leaves the body unchanged.  For a body whose only reference is the
autolink `<https://t.me/ch/7>` (with `7` mapped) the second application
does change the body (claim C1's bug), so a button-style link to the
mapped message `8` — which resolves and whose canonical pattern is absent
from the rewritten body — produces *zero* fallback entries, where the
claim requires exactly one.  The two concrete scenarios named by the claim
do hold (second and third conjuncts). -/
theorem appendSeeAlso_gate_divergence :
    (appendSeeAlso
        (fun i => if i == 7 then some ("blog/a.md".toList)
          else if i == 8 then some ("blog/b.md".toList) else none)
        ("<https://t.me/ch/7>\n".toList) [("https://t.me/ch/8".toList)] =
      "[[[https://t.me/ch/7](\x7b\x7b< relref \"blog/a.md\" >\x7d\x7d)](\x7b\x7b< relref \"blog/a.md\" >\x7d\x7d)](\x7b\x7b< relref \"blog/a.md\" >\x7d\x7d)\n".toList ∧
      (if (8 : Nat) == 7 then some ("blog/a.md".toList)
        else if (8 : Nat) == 8 then some ("blog/b.md".toList) else none) =
        some ("blog/b.md".toList) ∧
      searchTgRef 8
        ("[[[https://t.me/ch/7](\x7b\x7b< relref \"blog/a.md\" >\x7d\x7d)](\x7b\x7b< relref \"blog/a.md\" >\x7d\x7d)](\x7b\x7b< relref \"blog/a.md\" >\x7d\x7d)\n".toList) = false) ∧
    appendSeeAlso
        (fun i => if i == 7 then some ("blog/a.md".toList)
          else if i == 8 then some ("blog/b.md".toList) else none)
        ("hello\n".toList) [("https://t.me/ch/8".toList)] =
      "hello\n\n\n**См. также:**\n- \x7b< relref \"blog/b.md\" >\x7d\n".toList ∧
    appendSeeAlso
        (fun i => if i == 7 then some ("blog/a.md".toList)
          else if i == 8 then some ("blog/b.md".toList) else none)
        ("see https://t.me/ch/8\n".toList) [("https://t.me/ch/8".toList)] =
      "see [[https://t.me/ch/8](\x7b\x7b< relref \"blog/b.md\" >\x7d\x7d)](\x7b\x7b< relref \"blog/b.md\" >\x7d\x7d)\n".toList := by
  exact ⟨⟨by decide, by decide, by decide⟩, by decide, by decide⟩

/-! ### `build_markdown_from_entities` -/

/-- A Telegram entity record: `type`, `offset`/`length` (UTF-16 code
units, absent when the exported record is malformed), optional `url`
(text-link kinds) and optional `language` (code blocks).  Offsets are
non-negative per the export's data model. -/
structure TgEntity where
  etype : Str
  offset : Option Nat
  length : Option Nat
  url : Option Str
  language : Option Str
deriving DecidableEq

/-- Code points of a string. -/
def strToCps (s : Str) : List Nat := s.map Char.toNat

/-- String from code points (the points produced by `utf16Decode` are
always scalar values). -/
def cpsToStr (s : List Nat) : Str := s.map Char.ofNat

/-- `_utf16_slice` on strings. -/
def utf16SliceStr (s : Str) (i j : Nat) : Option Str :=
  (utf16_slice (strToCps s) i j).map cpsToStr

/-- `_utf16_splice` on strings. -/
def utf16SpliceStr (s : Str) (i j : Nat) (ins : Str) : Option Str :=
  (utf16_splice (strToCps s) i j (strToCps ins)).map cpsToStr

/-- The `ENTITY_MARKS` table (open/close marker pairs). -/
def entityMarks (et : Str) : Option (Str × Str) :=
  if et == "MessageEntityBold".toList then some ("**".toList, "**".toList)
  else if et == "MessageEntityItalic".toList then some ("*".toList, "*".toList)
  else if et == "MessageEntityUnderline".toList then some ("<u>".toList, "</u>".toList)
  else if et == "MessageEntityStrike".toList then some ("~~".toList, "~~".toList)
  else if et == "MessageEntitySpoiler".toList then
    some ("<span class=\"spoiler\">".toList, "</span>".toList)
  else if et == "MessageEntityCode".toList then some ("`".toList, "`".toList)
  else if et == "MessageEntityPre".toList then some ("```".toList, "```".toList)
  else none

/-- `txt.replace("[", "\\[").replace("]", "\\]")`. -/
def escapeBrackets (s : Str) : Str :=
  (s.map fun c =>
    if c == '[' then ['\\', '[']
    else if c == ']' then ['\\', ']']
    else [c]).flatten

/-- A replacement span `(start, end, repl)` in UTF-16 code units. -/
structure Span where
  start : Nat
  stop : Nat
  repl : Str
deriving DecidableEq

/-- Outcome of examining one entity: skipped (malformed or unrecognized),
failed (a UTF-16 slice raised), or a replacement span. -/
inductive SpanRes where
  | skip : SpanRes
  | fail : SpanRes
  | span : Span → SpanRes

/-- The per-entity branch of `build_markdown_from_entities` (lines
259–291 of `tg2hugo.py`). -/
def spanOfEntity (raw : Str) (e : TgEntity) : SpanRes :=
  match e.offset, e.length with
  | some off, some len =>
    let start := off
    let stop := off + len
    if e.etype == "MessageEntityTextUrl".toList then
      match e.url with
      | some u =>
        if u.isEmpty then SpanRes.skip
        else
          match utf16SliceStr raw start stop with
          | none => SpanRes.fail
          | some txt =>
            SpanRes.span ⟨start, stop, '[' :: escapeBrackets txt ++ ']' :: '(' :: u ++ [')']⟩
      | none => SpanRes.skip
    else if e.etype == "MessageEntityUrl".toList then
      match utf16SliceStr raw start stop with
      | none => SpanRes.fail
      | some t => SpanRes.span ⟨start, stop, '[' :: t ++ ']' :: '(' :: t ++ [')']⟩
    else if e.etype == "MessageEntityPre".toList then
      match utf16SliceStr raw start stop with
      | none => SpanRes.fail
      | some content =>
        let fence :=
          match e.language with
          | some lang => if lang.isEmpty then "```".toList else "```".toList ++ lang
          | none => "```".toList
        SpanRes.span ⟨start, stop, fence ++ '\n' :: content ++ "\n```".toList⟩
    else
      match entityMarks e.etype with
      | some (op, cl) =>
        match utf16SliceStr raw start stop with
        | none => SpanRes.fail
        | some content => SpanRes.span ⟨start, stop, op ++ content ++ cl⟩
      | none => SpanRes.skip
  | _, _ => SpanRes.skip

/-- The span-collection loop: skipped entities contribute nothing, a slice
failure aborts (a Python exception). -/
def spansOfEntities (raw : Str) : List TgEntity → Option (List Span)
  | [] => some []
  | e :: rest =>
    match spanOfEntity raw e with
    | SpanRes.fail => none
    | SpanRes.skip => spansOfEntities raw rest
    | SpanRes.span s => (spansOfEntities raw rest).map (s :: ·)

/-- Stable insertion for descending-by-`start` order: an element moves past
only strictly greater starts, so equal starts keep their original order
(Python's stable `sort(key=start, reverse=True)`). -/
def insertSpanDesc (x : Span) : List Span → List Span
  | [] => [x]
  | y :: ys => if x.start < y.start then y :: insertSpanDesc x ys else x :: y :: ys

/-- `spans.sort(key=lambda x: x[1], reverse=True)`. -/
def sortSpansDesc : List Span → List Span
  | [] => []
  | x :: xs => insertSpanDesc x (sortSpansDesc xs)

/-- The splice loop: apply replacements from highest start downwards. -/
def applySpans : List Span → Str → Option Str
  | [], out => some out
  | s :: rest, out =>
    match utf16SpliceStr out s.start s.stop s.repl with
    | none => none
    | some out2 => applySpans rest out2

/-- `build_markdown_from_entities(raw_text, entities)` from `tg2hugo.py`.
`none` models a raised exception (a slice that splits a surrogate pair). -/
def build_markdown_from_entities (raw : Str) (entities : List TgEntity) : Option Str :=
  if raw.isEmpty then some []
  else if entities.isEmpty then some raw
  else
    match spansOfEntities raw entities with
    | none => none
    | some spans =>
      if spans.isEmpty then some raw
      else applySpans (sortSpansDesc spans) raw

/-- An entity carries both an offset and a length. -/
def entityWellFormed (e : TgEntity) : Bool := e.offset.isSome && e.length.isSome

theorem spanOfEntity_malformed {raw : Str} {e : TgEntity}
    (h : entityWellFormed e = false) : spanOfEntity raw e = SpanRes.skip := by
  unfold entityWellFormed at h
  unfold spanOfEntity
  cases ho : e.offset with
  | none => rfl
  | some off =>
    cases hl : e.length with
    | none => rfl
    | some len => simp [ho, hl] at h

theorem spansOfEntities_filter (raw : Str) (es : List TgEntity) :
    spansOfEntities raw es = spansOfEntities raw (es.filter entityWellFormed) := by
  induction es with
  | nil => rfl
  | cons e rest ih =>
    by_cases hw : entityWellFormed e
    · rw [List.filter_cons_of_pos hw]
      conv_lhs => rw [spansOfEntities]
      conv_rhs => rw [spansOfEntities]
      rw [ih]
    · rw [List.filter_cons_of_neg (by simpa using hw)]
      conv_lhs => rw [spansOfEntities]
      rw [spanOfEntity_malformed (by simpa using hw), ih]

/-- Claim C8: malformed annotations (missing offset or length) are skipped
without failing the reconstruction — `build_markdown_from_entities`
coincides on an annotation list and on that list with the malformed
entries removed; with no annotations (or only malformed ones) the raw
text is returned unchanged. -/
theorem build_markdown_skips_malformed (raw : Str) (es : List TgEntity) :
    build_markdown_from_entities raw es =
      build_markdown_from_entities raw (es.filter entityWellFormed) ∧
    build_markdown_from_entities raw [] = some raw ∧
    (es.filter entityWellFormed = [] →
      build_markdown_from_entities raw es = some raw) := by
  have hbase : build_markdown_from_entities raw [] = some raw := by
    unfold build_markdown_from_entities
    by_cases hr : raw.isEmpty
    · simp [hr, List.isEmpty_iff.mp hr]
    · simp [hr]
  refine ⟨?_, hbase, ?_⟩
  · unfold build_markdown_from_entities
    by_cases hr : raw.isEmpty
    · simp [hr]
    · simp only [hr, if_false]
      by_cases he : es.isEmpty
      · have : es = [] := List.isEmpty_iff.mp he
        subst this
        simp
      · by_cases hf : (es.filter entityWellFormed).isEmpty
        · have hf2 : es.filter entityWellFormed = [] := List.isEmpty_iff.mp hf
          rw [spansOfEntities_filter raw es, hf2]
          simp [he, spansOfEntities]
        · simp only [he, hf, if_false]
          rw [spansOfEntities_filter raw es]
  · intro hf
    unfold build_markdown_from_entities
    by_cases hr : raw.isEmpty
    · simp [hr, List.isEmpty_iff.mp hr]
    · simp only [hr, if_false]
      by_cases he : es.isEmpty
      · simp [List.isEmpty_iff.mp he]
      · simp only [he, if_false]
        rw [spansOfEntities_filter raw es, hf]
        simp [spansOfEntities]

/-- Witness for C8's conditional part at a concrete input: a single
annotation lacking its length is skipped and the raw text survives. -/
theorem build_markdown_skips_malformed_witness :
    build_markdown_from_entities ("hi".toList)
      [⟨"MessageEntityBold".toList, some 0, none, none, none⟩] = some ("hi".toList) :=
  (build_markdown_skips_malformed ("hi".toList)
    [⟨"MessageEntityBold".toList, some 0, none, none, none⟩]).2.2 (by decide)

/-! ### `normalize_markdown`, message bodies, day-bucket assembly -/

/-- `md.replace("\r\n", "\n")` (sequential non-overlapping replacement). -/
def crlfFix : Str → Str
  | [] => []
  | '\r' :: '\n' :: r => '\n' :: crlfFix r
  | c :: r => c :: crlfFix r

/-- Attempt to close an empty-target markdown link: `](` then whitespace
(regex `(\s*)`, greedy) then `)`; returns the rest after `)`. -/
def emptyLinkClose : Str → Option Str
  | ']' :: '(' :: r =>
    match r.dropWhile isPySpace with
    | ')' :: rest => some rest
    | _ => none
  | _ => none

/-- The lazy `(.*?)` of `\[(.*?)\]\((\s*)\)`: grow the label from the
shortest prefix (never across a newline, `.` excludes it) until the
closing part matches. -/
def emptyLinkText : Str → Option (Str × Str)
  | [] => none
  | c :: r =>
    match emptyLinkClose (c :: r) with
    | some rest => some ([], rest)
    | none =>
      if c == '\n' then none
      else (emptyLinkText r).map fun (t, rest) => (c :: t, rest)

/-- Match of `\[(.*?)\]\((\s*)\)` at the head of the string. -/
def emptyLinkMatch : Str → Option (Str × Str)
  | '[' :: r => emptyLinkText r
  | _ => none

/-- `re.sub(r"\[(.*?)\]\((\s*)\)", r"[\1](#)", md)` as a fuel scan. -/
def emptyLinkFixGo : Nat → Str → Str
  | 0, cs => cs
  | _ + 1, [] => []
  | fuel + 1, c :: cs =>
    match emptyLinkMatch (c :: cs) with
    | some (t, rest) => '[' :: t ++ "](#)".toList ++ emptyLinkFixGo fuel rest
    | none => c :: emptyLinkFixGo fuel cs

/-- Empty-target links become `[...](#)`. -/
def emptyLinkFix (cs : Str) : Str := emptyLinkFixGo cs.length cs

/-- `normalize_markdown(md)` from `tg2hugo.py`. -/
def normalize_markdown (md : Str) : Str :=
  pyStrip (emptyLinkFix (crlfFix md)) ++ ['\n']

/-- `s.splitlines()` (modelled on `\n`, `\r\n` and `\r`; a terminator at
the end produces no extra empty line). -/
def splitLinesAux (cur : Str) : Str → List Str
  | [] => if cur.isEmpty then [] else [cur.reverse]
  | '\r' :: '\n' :: rest => cur.reverse :: splitLinesAux [] rest
  | '\n' :: rest => cur.reverse :: splitLinesAux [] rest
  | '\r' :: rest => cur.reverse :: splitLinesAux [] rest
  | c :: rest => splitLinesAux (c :: cur) rest

/-- `s.splitlines()`. -/
def splitLines (s : Str) : List Str := splitLinesAux [] s

/-- `_first_line` / `first_nonempty_line`: the stripped first line whose
strip is non-empty, else the empty string. -/
def firstLine (text : Str) : Str :=
  match (splitLines text).find? (fun ln => !(pyStrip ln).isEmpty) with
  | some ln => pyStrip ln
  | none => []

/-- A source message as `run()` consumes it (media paths are handled by
the filesystem collaborator and are not needed by the claims). -/
structure Msg where
  id : Nat
  date_utc : Str
  raw_text : Str
  text_markdown : Str
  text_html : Str
  entities : List TgEntity
  links : List Str
deriving DecidableEq

/-- The entity kinds that make `run()` rebuild the body from
`raw_text + entities`. -/
def richEntityTypes : List Str :=
  ["MessageEntityTextUrl", "MessageEntityUrl", "MessageEntityBold",
   "MessageEntityItalic", "MessageEntityUnderline", "MessageEntityStrike",
   "MessageEntitySpoiler", "MessageEntityCode", "MessageEntityPre"].map
    String.toList

/-- `has_rich` from `run._body_markdown_for_msg`. -/
def hasRichEntities (es : List TgEntity) : Bool :=
  es.any fun e => richEntityTypes.contains e.etype

/-- Python's `(m.get("text_markdown") or m.get("text_html") or
m.get("raw_text") or "")`: the first non-empty field (a whitespace-only
field is truthy and is selected). -/
def firstTruthyText (m : Msg) : Str :=
  if !m.text_markdown.isEmpty then m.text_markdown
  else if !m.text_html.isEmpty then m.text_html
  else m.raw_text

/-- `_has_text` from `run()`. -/
def msgHasText (m : Msg) : Bool := !(pyStrip (firstTruthyText m)).isEmpty

/-- `run._body_markdown_for_msg`, with the external `markdownify`
HTML→Markdown converter abstracted as `h2m`.  `none` models a raised
exception inside `build_markdown_from_entities`. -/
def body_markdown_for_msg (h2m : Str → Str) (m : Msg) : Option Str :=
  let raw := pyStrip m.raw_text
  let tmd := pyStrip m.text_markdown
  let tht := pyStrip m.text_html
  if hasRichEntities m.entities then
    (build_markdown_from_entities raw m.entities).map normalize_markdown
  else
    some (normalize_markdown
      (if !tmd.isEmpty then tmd
       else if !tht.isEmpty then h2m tht
       else raw))

/-- Stable ascending insertion by id: an element moves past only strictly
smaller ids, so equal ids keep their original order (Python's stable
`sorted(recs, key=lambda r: int(r["id"]))`). -/
def insertByIdAsc (x : Msg) : List Msg → List Msg
  | [] => [x]
  | y :: ys => if y.id < x.id then y :: insertByIdAsc x ys else x :: y :: ys

/-- `sorted(recs, key=lambda r: int(r["id"]))`. -/
def sortMsgs : List Msg → List Msg
  | [] => []
  | x :: xs => insertByIdAsc x (sortMsgs xs)

theorem insertByIdAsc_perm (x : Msg) (l : List Msg) :
    List.Perm (insertByIdAsc x l) (x :: l) := by
  induction l with
  | nil => rfl
  | cons y ys ih =>
    unfold insertByIdAsc
    by_cases h : y.id < x.id
    · rw [if_pos h]
      exact (ih.cons y).trans (List.Perm.swap x y ys)
    · rw [if_neg h]

theorem sortMsgs_perm (l : List Msg) : List.Perm (sortMsgs l) l := by
  induction l with
  | nil => rfl
  | cons x xs ih => exact (insertByIdAsc_perm x (sortMsgs xs)).trans (ih.cons x)

theorem insertByIdAsc_pairwise {x : Msg} {l : List Msg}
    (h : l.Pairwise fun a b => a.id ≤ b.id) :
    (insertByIdAsc x l).Pairwise fun a b => a.id ≤ b.id := by
  induction l with
  | nil => simp [insertByIdAsc]
  | cons y ys ih =>
    rw [List.pairwise_cons] at h
    unfold insertByIdAsc
    by_cases hc : y.id < x.id
    · rw [if_pos hc]
      rw [List.pairwise_cons]
      refine ⟨?_, ih h.2⟩
      intro z hz
      rcases List.mem_cons.mp ((insertByIdAsc_perm x ys).mem_iff.mp hz) with hzx | hzy
      · subst hzx; omega
      · exact h.1 z hzy
    · rw [if_neg hc]
      rw [List.pairwise_cons]
      refine ⟨?_, List.pairwise_cons.mpr h⟩
      intro z hz
      rcases List.mem_cons.mp hz with hzy | hzys
      · subst hzy; omega
      · have := h.1 z hzys
        omega

theorem sortMsgs_sorted (l : List Msg) :
    (sortMsgs l).Pairwise fun a b => a.id ≤ b.id := by
  induction l with
  | nil => simp [sortMsgs]
  | cons x xs ih => exact insertByIdAsc_pairwise ih

/-- Per-message final body in Pass 2: reconstruct, rewrite internal links
against the global map, strip. -/
def msgFinalBody (h2m : Str → Str) (m : Nat → Option Str) (msg : Msg) : Option Str :=
  (body_markdown_for_msg h2m msg).map fun md => pyStrip (rewrite_internal_links m md)

/-- The `parts` loop of Pass 2 (lines 885–893 of `tg2hugo.py`): textless
messages are skipped, a reconstruction failure aborts, blank final bodies
are dropped. -/
def assembleParts (h2m : Str → Str) (m : Nat → Option Str) :
    List Msg → Option (List Str)
  | [] => some []
  | msg :: rest =>
    if msgHasText msg then
      match msgFinalBody h2m m msg with
      | none => none
      | some b =>
        (assembleParts h2m m rest).map fun ps => if b.isEmpty then ps else b :: ps
    else assembleParts h2m m rest

/-- The horizontal-rule separator `"\n\n---\n\n"` between message bodies. -/
def hrSeparator : Str := "\n\n---\n\n".toList

/-- `body_md` of a day bucket in Pass 2: the bucket's messages sorted by
ascending id, assembled and joined with the separator (empty when no part
survives). -/
def bodyMdOfBucket (h2m : Str → Str) (m : Nat → Option Str) (msgs : List Msg) :
    Option Str :=
  (assembleParts h2m m (sortMsgs msgs)).map fun parts =>
    if parts.isEmpty then [] else List.intercalate hrSeparator parts ++ ['\n']

theorem assembleParts_eq (h2m : Str → Str) (m : Nat → Option Str) (l : List Msg)
    (hok : ∀ msg ∈ l, msgHasText msg → (body_markdown_for_msg h2m msg).isSome) :
    assembleParts h2m m l =
      some ((l.filter fun ms =>
          msgHasText ms && !((msgFinalBody h2m m ms).getD []).isEmpty).map
        fun ms => (msgFinalBody h2m m ms).getD []) := by
  induction l with
  | nil => rfl
  | cons msg rest ih =>
    have hrest : ∀ ms ∈ rest, msgHasText ms → (body_markdown_for_msg h2m ms).isSome :=
      fun ms hms => hok ms (List.mem_cons_of_mem msg hms)
    unfold assembleParts
    by_cases ht : msgHasText msg
    · rw [if_pos ht]
      have hsome2 : (msgFinalBody h2m m msg).isSome := by
        unfold msgFinalBody
        cases hbm : body_markdown_for_msg h2m msg with
        | none =>
          have := hok msg (List.mem_cons_self msg rest) ht
          rw [hbm] at this
          simp at this
        | some md => simp
      cases hfb : msgFinalBody h2m m msg with
      | none => rw [hfb] at hsome2; simp at hsome2
      | some b =>
        rw [ih hrest]
        simp only [Option.map_some']
        by_cases hbe : b.isEmpty
        · rw [List.filter_cons_of_neg (by simp [hfb, hbe])]
          simp [hbe]
        · rw [List.filter_cons_of_pos (by simp only [hfb, ht, Option.getD_some,
            Bool.true_and, Bool.not_eq_true']; simpa using hbe)]
          simp [hfb, hbe]
    · rw [if_neg ht]
      rw [ih hrest]
      rw [List.filter_cons_of_neg (by simp [ht])]

/-- Claim C7: the Pass-2 document body of a day bucket is exactly the
reconstructed, link-rewritten, stripped bodies of the bucket's messages
that pass the text filters (`_has_text`, and a non-blank final body — the
spec's "non-empty reconstructed text"), in ascending-identifier order,
joined with the horizontal-rule separator; textless messages contribute
nothing.  The hypothesis asks only that reconstruction succeeds for every
text-bearing message (a failure is a raised exception that aborts the
run). -/
theorem bodyMdOfBucket_spec (h2m : Str → Str) (m : Nat → Option Str) (msgs : List Msg)
    (hok : ∀ msg ∈ msgs, msgHasText msg → (body_markdown_for_msg h2m msg).isSome) :
    bodyMdOfBucket h2m m msgs =
      some (
        (fun parts => if parts.isEmpty then []
          else List.intercalate hrSeparator parts ++ ['\n'])
        (((sortMsgs msgs).filter fun ms =>
            msgHasText ms && !((msgFinalBody h2m m ms).getD []).isEmpty).map
          fun ms => (msgFinalBody h2m m ms).getD [])) ∧
    (sortMsgs msgs).Pairwise (fun a b => a.id ≤ b.id) ∧
    List.Perm (sortMsgs msgs) msgs := by
  refine ⟨?_, sortMsgs_sorted msgs, sortMsgs_perm msgs⟩
  have hok2 : ∀ msg ∈ sortMsgs msgs, msgHasText msg →
      (body_markdown_for_msg h2m msg).isSome :=
    fun msg hm => hok msg ((sortMsgs_perm msgs).mem_iff.mp hm)
  unfold bodyMdOfBucket
  rw [assembleParts_eq h2m m (sortMsgs msgs) hok2]
  rfl

/-- Witness for C7: a three-message bucket, given out of order — one plain
text message (id 1), one referencing it by bare URL (id 2), one textless
(id 3) — produces the two bodies in id order joined by the separator, with
the textless message contributing nothing. -/
theorem bodyMdOfBucket_spec_witness :
    bodyMdOfBucket (fun s => s)
        (fun i => if i == 1 then some ("blog/a.md".toList) else none)
        [⟨2, [], [], "see https://t.me/ch/1".toList, [], [], []⟩,
         ⟨3, [], [], [], [], [], []⟩,
         ⟨1, [], [], "hello".toList, [], [], []⟩] =
      some (
        (fun parts => if parts.isEmpty then []
          else List.intercalate hrSeparator parts ++ ['\n'])
        (((sortMsgs [⟨2, [], [], "see https://t.me/ch/1".toList, [], [], []⟩,
              ⟨3, [], [], [], [], [], []⟩,
              ⟨1, [], [], "hello".toList, [], [], []⟩]).filter fun ms =>
            msgHasText ms && !((msgFinalBody (fun s => s)
              (fun i => if i == 1 then some ("blog/a.md".toList) else none)
                ms).getD []).isEmpty).map
          fun ms => (msgFinalBody (fun s => s)
            (fun i => if i == 1 then some ("blog/a.md".toList) else none)
              ms).getD [])) ∧
    (sortMsgs [⟨2, [], [], "see https://t.me/ch/1".toList, [], [], []⟩,
        ⟨3, [], [], [], [], [], []⟩,
        ⟨1, [], [], "hello".toList, [], [], []⟩]).Pairwise
      (fun a b => a.id ≤ b.id) ∧
    List.Perm (sortMsgs [⟨2, [], [], "see https://t.me/ch/1".toList, [], [], []⟩,
        ⟨3, [], [], [], [], [], []⟩,
        ⟨1, [], [], "hello".toList, [], [], []⟩])
      [⟨2, [], [], "see https://t.me/ch/1".toList, [], [], []⟩,
        ⟨3, [], [], [], [], [], []⟩,
        ⟨1, [], [], "hello".toList, [], [], []⟩] :=
  bodyMdOfBucket_spec (fun s => s)
    (fun i => if i == 1 then some ("blog/a.md".toList) else none)
    [⟨2, [], [], "see https://t.me/ch/1".toList, [], [], []⟩,
     ⟨3, [], [], [], [], [], []⟩,
     ⟨1, [], [], "hello".toList, [], [], []⟩]
    (by decide)

/-! ### Slug derivation and reservation -/

/-- `make_slug(title, extra)` from `tg2hugo.py`, with the two external
`slugify` calls abstracted as `slugifyTitle` / `slugifyExtra`. -/
def make_slug (slugifyTitle slugifyExtra : Str → Str) (title extra : Str) : Str :=
  let s := slugifyTitle title
  let s2 := if s.isEmpty then "post".toList else s
  if extra.isEmpty then s2 else s2 ++ '-' :: slugifyExtra extra

/-- Claim C10: `make_slug` is total and never returns an empty slug — when
the slugified title is empty (a title of only emoji or punctuation strips
to nothing) the literal `"post"` is substituted. -/
theorem make_slug_nonempty (g1 g2 : Str → Str) (title extra : Str) :
    make_slug g1 g2 title extra ≠ [] ∧
    (g1 title = [] → extra = [] → make_slug g1 g2 title extra = "post".toList) := by
  constructor
  · unfold make_slug
    by_cases hs : (g1 title).isEmpty
    · by_cases he : extra.isEmpty
      · simp [hs, he]
      · simp [hs, he]
    · by_cases he : extra.isEmpty
      · simp only [hs, Bool.false_eq_true, if_false, he, if_true]
        simpa [List.isEmpty_iff] using hs
      · simp [hs, he]
  · intro h1 h2
    unfold make_slug
    simp [h1, h2]

/-- Witness for C10: a title that slugifies to nothing yields `"post"`. -/
theorem make_slug_nonempty_witness :
    make_slug (fun _ => []) (fun _ => []) ("😀!!".toList) [] = "post".toList ∧
    make_slug (fun _ => []) (fun _ => []) ("😀!!".toList) [] ≠ [] :=
  ⟨(make_slug_nonempty (fun _ => []) (fun _ => []) ("😀!!".toList) []).2 rfl rfl,
   (make_slug_nonempty (fun _ => []) (fun _ => []) ("😀!!".toList) []).1⟩

/-- The candidate sequence of `reserve_unique_slug`: the base itself, then
`base-2`, `base-3`, … (numeric suffixes from 2). -/
def slugCandidate (base : Str) : Nat → Str
  | 0 => base
  | k + 1 => base ++ '-' :: natDigits (k + 2)

/-- The `while s in used` loop, with `fuel` bounding the iterations
(`used.length + 1` always suffices, by the pigeonhole argument below). -/
def reserveFrom (base : Str) (used : List Str) : Nat → Nat → Str
  | 0, k => slugCandidate base k
  | fuel + 1, k =>
    if slugCandidate base k ∈ used then reserveFrom base used fuel (k + 1)
    else slugCandidate base k

/-- `reserve_unique_slug(base, used)` from `tg2hugo.py`: the first free
candidate, immediately added to the reservation set (modelled as a list
with membership). -/
def reserve_unique_slug (base : Str) (used : List Str) : Str × List Str :=
  let s := reserveFrom base used (used.length + 1) 0
  (s, s :: used)

theorem slugCandidate_injective (base : Str) :
    Function.Injective (slugCandidate base) := by
  intro a b h
  match a, b with
  | 0, 0 => rfl
  | 0, k + 1 =>
    exfalso
    have := congrArg List.length h
    simp [slugCandidate] at this
  | j + 1, 0 =>
    exfalso
    have := congrArg List.length h
    simp [slugCandidate] at this
  | j + 1, k + 1 =>
    simp only [slugCandidate] at h
    have h2 := List.append_cancel_left h
    have h3 : natDigits (j + 2) = natDigits (k + 2) := by
      simpa using h2
    have := natDigits_injective h3
    omega

theorem exists_free_candidate (base : Str) (used : List Str) :
    ∃ j, j ≤ used.length ∧ slugCandidate base j ∉ used := by
  by_contra hc
  push_neg at hc
  have hsub : (Finset.range (used.length + 1)).image (slugCandidate base) ⊆
      used.toFinset := by
    intro s hs
    rw [Finset.mem_image] at hs
    obtain ⟨j, hj, rfl⟩ := hs
    rw [List.mem_toFinset]
    exact hc j (by rw [Finset.mem_range] at hj; omega)
  have hcard := Finset.card_le_card hsub
  rw [Finset.card_image_of_injective _ (slugCandidate_injective base),
    Finset.card_range] at hcard
  have := List.toFinset_card_le used
  omega

theorem reserveFrom_spec (base : Str) (used : List Str) (fuel k : Nat)
    (h : ∃ j, j < fuel ∧ slugCandidate base (k + j) ∉ used) :
    ∃ i, reserveFrom base used fuel k = slugCandidate base (k + i) ∧
      slugCandidate base (k + i) ∉ used ∧
      ∀ j < i, slugCandidate base (k + j) ∈ used := by
  induction fuel generalizing k with
  | zero =>
    obtain ⟨j, hj, -⟩ := h
    omega
  | succ f ih =>
    by_cases hk : slugCandidate base k ∈ used
    · obtain ⟨j, hj, hjf⟩ := h
      have hj0 : j ≠ 0 := by
        intro h0
        subst h0
        simp at hjf
        exact hjf hk
      have hshift : slugCandidate base (k + 1 + (j - 1)) ∉ used := by
        have : k + 1 + (j - 1) = k + j := by omega
        rw [this]
        exact hjf
      obtain ⟨i, hi1, hi2, hi3⟩ := ih (k + 1) ⟨j - 1, by omega, hshift⟩
      refine ⟨i + 1, ?_, ?_, ?_⟩
      · unfold reserveFrom
        rw [if_pos hk, hi1]
        congr 1
        omega
      · have : k + (i + 1) = k + 1 + i := by omega
        rw [this]
        exact hi2
      · intro j2 hj2
        by_cases h0 : j2 = 0
        · subst h0; simpa using hk
        · have hlt : j2 - 1 < i := by omega
          have := hi3 (j2 - 1) hlt
          have heq : k + 1 + (j2 - 1) = k + j2 := by omega
          rw [heq] at this
          exact this
    · refine ⟨0, ?_, by simpa using hk, by omega⟩
      unfold reserveFrom
      rw [if_neg hk]
      simp

/-- The reserved slug: not in `used`, reserved immediately, and obtained
by trying the candidates `base`, `base-2`, `base-3`, … in order. -/
theorem reserve_unique_slug_spec (base : Str) (used : List Str) :
    (reserve_unique_slug base used).1 ∉ used ∧
    (reserve_unique_slug base used).2 = (reserve_unique_slug base used).1 :: used ∧
    ∃ i, (reserve_unique_slug base used).1 = slugCandidate base i ∧
      ∀ j < i, slugCandidate base j ∈ used := by
  obtain ⟨j0, hj0, hfree⟩ := exists_free_candidate base used
  have hex : ∃ j, j < used.length + 1 ∧ slugCandidate base (0 + j) ∉ used :=
    ⟨j0, by omega, by simpa using hfree⟩
  obtain ⟨i, hi1, hi2, hi3⟩ := reserveFrom_spec base used (used.length + 1) 0 hex
  refine ⟨?_, rfl, ⟨i, ?_, ?_⟩⟩
  · show reserveFrom base used (used.length + 1) 0 ∉ used
    rw [hi1]
    simpa using hi2
  · show reserveFrom base used (used.length + 1) 0 = slugCandidate base i
    rw [hi1]
    congr 1
    omega
  · intro j hj
    have := hi3 j hj
    simpa using this

/-! ### Pass 1 — day bucketing, titles, slugs, identifier map -/

/-- The character ranges of `_EMOJI_RE`. -/
def isEmojiChar (c : Char) : Bool :=
  let n := c.toNat
  (0x1F1E6 ≤ n && n ≤ 0x1F1FF) || (0x1F300 ≤ n && n ≤ 0x1F5FF) ||
  (0x1F600 ≤ n && n ≤ 0x1F64F) || (0x1F680 ≤ n && n ≤ 0x1F6FF) ||
  (0x1F700 ≤ n && n ≤ 0x1F77F) || (0x1F780 ≤ n && n ≤ 0x1F7FF) ||
  (0x1F800 ≤ n && n ≤ 0x1F8FF) || (0x1F900 ≤ n && n ≤ 0x1F9FF) ||
  (0x1FA00 ≤ n && n ≤ 0x1FA6F) || (0x1FA70 ≤ n && n ≤ 0x1FAFF) ||
  (0x2700 ≤ n && n ≤ 0x27BF) || (0x2600 ≤ n && n ≤ 0x26FF)

/-- Variation selectors and the zero-width joiner
(`[︎️‍]`). -/
def isVariationJoiner (c : Char) : Bool :=
  c == Char.ofNat 0xFE0E || c == Char.ofNat 0xFE0F || c == Char.ofNat 0x200D

/-- `re.sub(r"\s{2,}", " ", s)`: a run of two or more whitespace characters
becomes one space; a lone whitespace character is kept as is. -/
def collapseSpacesGo : Nat → Str → Str
  | 0, cs => cs
  | _ + 1, [] => []
  | fuel + 1, c :: rest =>
    if isPySpace c then
      match rest with
      | [] => [c]
      | c2 :: _ =>
        if isPySpace c2 then ' ' :: collapseSpacesGo fuel (rest.dropWhile isPySpace)
        else c :: collapseSpacesGo fuel rest
    else c :: collapseSpacesGo fuel rest

/-- Whitespace-run collapsing. -/
def collapseSpaces (cs : Str) : Str := collapseSpacesGo cs.length cs

/-- `strip_emojis_and_spaces(s)` from `tg2hugo.py`. -/
def strip_emojis_and_spaces (s : Str) : Str :=
  if s.isEmpty then s
  else pyStrip (collapseSpaces
    ((s.filter fun c => !isEmojiChar c).filter fun c => !isVariationJoiner c))

/-- `buckets.setdefault(day, []).append(m)`: insertion-ordered grouping. -/
def addToBuckets (day : Str) (m : Msg) : List (Str × List Msg) → List (Str × List Msg)
  | [] => [(day, [m])]
  | (d, ms) :: rest =>
    if d == day then (d, ms ++ [m]) :: rest else (d, ms) :: addToBuckets day m rest

/-- Group messages by day key in first-appearance order; messages with no
resolvable day are dropped (`local_day_key`'s `datetime`/`zoneinfo`
internals are the external `dayKey` collaborator). -/
def bucketsOf (dayKey : Msg → Option Str) (msgs : List Msg) : List (Str × List Msg) :=
  msgs.foldl
    (fun bs msg =>
      match dayKey msg with
      | none => bs
      | some d => addToBuckets d msg bs)
    []

/-- One prepared day bucket of Pass 1. -/
structure DayPrep where
  day : Str
  title : Str
  slug : Str
  msgs : List Msg
deriving DecidableEq

/-- The title loop of Pass 1: the first line of the reconstructed body of
the first text-bearing message, `none` when reconstruction raises. -/
def bucketTitleRaw (h2m : Str → Str) (recs : List Msg) : Option Str :=
  match recs.find? msgHasText with
  | none => some []
  | some r => (body_markdown_for_msg h2m r).map firstLine

/-- A bucket's title: the extracted first line, or the synthetic
`Фотоальбом от <day>` fallback when it is empty, then emoji stripping and
whitespace collapsing. -/
def bucketTitle (day t0 : Str) : Str :=
  strip_emojis_and_spaces (if t0.isEmpty then "Фотоальбом от ".toList ++ day else t0)

/-- A bucket's base slug (`make_slug(title)`, no extra part). -/
def bucketBaseSlug (slugifyF : Str → Str) (day t0 : Str) : Str :=
  make_slug slugifyF slugifyF (bucketTitle day t0) []

/-- Pass 1 over the bucket list (lines 823–861 of `tg2hugo.py`): per day
bucket, sort by id, derive the title (with the `Фотоальбом` fallback and
emoji stripping), derive the base slug and reserve a unique slug. -/
def prepBuckets (h2m slugifyF : Str → Str) :
    List (Str × List Msg) → List Str → Option (List DayPrep)
  | [], _ => some []
  | (day, recs) :: rest, used =>
    match bucketTitleRaw h2m (sortMsgs recs) with
    | none => none
    | some t0 =>
      (prepBuckets h2m slugifyF rest
          (reserve_unique_slug (bucketBaseSlug slugifyF day t0) used).2).map
        fun ps =>
          ⟨day, bucketTitle day t0,
            (reserve_unique_slug (bucketBaseSlug slugifyF day t0) used).1,
            sortMsgs recs⟩ :: ps

/-- Pass 1: bucket, then prepare every bucket against the stems of the
pre-existing `.md` files. -/
def pass1 (h2m slugifyF : Str → Str) (dayKey : Msg → Option Str)
    (msgs : List Msg) (stems : List Str) : Option (List DayPrep) :=
  prepBuckets h2m slugifyF (bucketsOf dayKey msgs) stems

/-- The global `id2relref` map built from the prepared buckets; later
entries overwrite earlier ones, as in the Python dict. -/
def idMapOfPreps (ps : List DayPrep) : Nat → Option Str :=
  ps.foldl
    (fun f p =>
      p.msgs.foldl
        (fun g r => fun i =>
          if i == r.id then some ("blog/".toList ++ p.slug ++ ".md".toList) else g i)
        f)
    (fun _ => none)

theorem prepBuckets_slugs (h2m slugifyF : Str → Str)
    (bs : List (Str × List Msg)) (used : List Str) (ps : List DayPrep)
    (h : prepBuckets h2m slugifyF bs used = some ps) :
    (ps.map DayPrep.slug).Nodup ∧ ∀ p ∈ ps, p.slug ∉ used := by
  induction bs generalizing used ps with
  | nil =>
    obtain rfl : ([] : List DayPrep) = ps := by simpa [prepBuckets] using h
    simp
  | cons b rest ih =>
    obtain ⟨day, recs⟩ := b
    unfold prepBuckets at h
    split at h
    · exact absurd h (by simp)
    · next t0 ht0 =>
      rw [Option.map_eq_some'] at h
      obtain ⟨tail, htail, rfl⟩ := h
      set base := bucketBaseSlug slugifyF day t0 with hbase
      obtain ⟨hnd, hnotin⟩ := ih _ tail htail
      obtain ⟨hfree, hsnd, -⟩ := reserve_unique_slug_spec base used
      constructor
      · rw [List.map_cons, List.nodup_cons]
        refine ⟨?_, hnd⟩
        intro hmem
        rw [List.mem_map] at hmem
        obtain ⟨p, hp, hslug⟩ := hmem
        have := hnotin p hp
        rw [hsnd] at this
        simp only [List.mem_cons, not_or] at this
        exact this.1 hslug
      · intro p hp
        rcases List.mem_cons.mp hp with rfl | hp2
        · exact hfree
        · have := hnotin p hp2
          rw [hsnd] at this
          simp only [List.mem_cons, not_or] at this
          exact this.2

/-- Claim C4: `reserve_unique_slug` returns a slug outside `used` (trying
the numeric suffixes sequentially from 2) and reserves it immediately; at
the run level every Pass-1 bucket slug is distinct from every other
bucket's slug and from every pre-existing stem, so no two output documents
share a path. -/
theorem slug_uniqueness :
    (∀ base used, (reserve_unique_slug base used).1 ∉ used ∧
      (reserve_unique_slug base used).2 = (reserve_unique_slug base used).1 :: used ∧
      ∃ i, (reserve_unique_slug base used).1 = slugCandidate base i ∧
        ∀ j < i, slugCandidate base j ∈ used) ∧
    ∀ (h2m slugifyF : Str → Str) (dayKey : Msg → Option Str) (msgs : List Msg)
      (stems : List Str) (ps : List DayPrep),
      pass1 h2m slugifyF dayKey msgs stems = some ps →
      (ps.map DayPrep.slug).Nodup ∧ (∀ p ∈ ps, p.slug ∉ stems) ∧
      (ps.map fun p => p.slug ++ ".md".toList).Nodup ∧
      ∀ p ∈ ps, (p.slug ++ ".md".toList) ∉ stems.map fun s => s ++ ".md".toList := by
  refine ⟨reserve_unique_slug_spec, ?_⟩
  intro h2m slugifyF dayKey msgs stems ps h
  obtain ⟨hnd, hnot⟩ := prepBuckets_slugs h2m slugifyF _ stems ps h
  have hinj : Function.Injective (fun s : Str => s ++ ".md".toList) := by
    intro a b hab
    exact List.append_cancel_right hab
  refine ⟨hnd, hnot, ?_, ?_⟩
  · have : (ps.map fun p => p.slug ++ ".md".toList) =
        (ps.map DayPrep.slug).map fun s => s ++ ".md".toList := by
      rw [List.map_map]
      rfl
    rw [this]
    exact List.Nodup.map hinj hnd
  · intro p hp hmem
    rw [List.mem_map] at hmem
    obtain ⟨s, hs, heq⟩ := hmem
    have : s = p.slug := hinj heq
    subst this
    exact hnot p hp hs

theorem reserve_unique_slug_congr (base : Str) (u1 u2 : List Str)
    (hmem : ∀ s, s ∈ u1 ↔ s ∈ u2) :
    (reserve_unique_slug base u1).1 = (reserve_unique_slug base u2).1 := by
  obtain ⟨h1f, -, i1, hi1, hmin1⟩ := reserve_unique_slug_spec base u1
  obtain ⟨h2f, -, i2, hi2, hmin2⟩ := reserve_unique_slug_spec base u2
  have hii : i1 = i2 := by
    by_contra hne
    rcases Nat.lt_or_ge i1 i2 with hlt | hge
    · have hin : slugCandidate base i1 ∈ u2 := hmin2 i1 hlt
      rw [← hi1] at hin
      exact h1f ((hmem _).mpr hin)
    · have hlt2 : i2 < i1 := by omega
      have hin : slugCandidate base i2 ∈ u1 := hmin1 i2 hlt2
      rw [← hi2] at hin
      exact h2f ((hmem _).mp hin)
  rw [hi1, hi2, hii]

theorem prepBuckets_congr (h2m slugifyF : Str → Str) (bs : List (Str × List Msg))
    (u1 u2 : List Str) (hmem : ∀ s, s ∈ u1 ↔ s ∈ u2) :
    prepBuckets h2m slugifyF bs u1 = prepBuckets h2m slugifyF bs u2 := by
  induction bs generalizing u1 u2 with
  | nil => rfl
  | cons b rest ih =>
    obtain ⟨day, recs⟩ := b
    unfold prepBuckets
    cases ht : bucketTitleRaw h2m (sortMsgs recs) with
    | none => rfl
    | some t0 =>
      have hres := reserve_unique_slug_congr (bucketBaseSlug slugifyF day t0) u1 u2 hmem
      have hmem2 : ∀ s,
          s ∈ (reserve_unique_slug (bucketBaseSlug slugifyF day t0) u1).2 ↔
          s ∈ (reserve_unique_slug (bucketBaseSlug slugifyF day t0) u2).2 := by
        intro s
        rw [(reserve_unique_slug_spec _ u1).2.1, (reserve_unique_slug_spec _ u2).2.1,
          hres]
        simp [hmem s]
      dsimp only
      rw [ih _ _ hmem2, hres]

/-- Claim C9: Pass 1 is deterministic — its outcome (day keys, bucket
titles and slugs) depends on the pre-existing output stems only through
their membership, never through the order the filesystem listed them in;
with the same messages, day-key function (time zone) and stem set, two
runs produce identical prepared buckets. -/
theorem pass1_deterministic (h2m slugifyF : Str → Str) (dayKey : Msg → Option Str)
    (msgs : List Msg) (stems1 stems2 : List Str)
    (hmem : ∀ s, s ∈ stems1 ↔ s ∈ stems2) :
    pass1 h2m slugifyF dayKey msgs stems1 = pass1 h2m slugifyF dayKey msgs stems2 :=
  prepBuckets_congr h2m slugifyF (bucketsOf dayKey msgs) stems1 stems2 hmem

/-- Witness for C9: the stems listed in two different orders (with a
duplicate) give identical Pass-1 results for a two-day input. -/
theorem pass1_deterministic_witness :
    pass1 (fun s => s) (fun _ => "day".toList)
        (fun m => if m.date_utc.isEmpty then none else some m.date_utc)
        [⟨1, "2025-07-05".toList, [], "a".toList, [], [], []⟩,
         ⟨2, "2025-07-06".toList, [], "b".toList, [], [], []⟩]
        ["day".toList, "x".toList] =
      pass1 (fun s => s) (fun _ => "day".toList)
        (fun m => if m.date_utc.isEmpty then none else some m.date_utc)
        [⟨1, "2025-07-05".toList, [], "a".toList, [], [], []⟩,
         ⟨2, "2025-07-06".toList, [], "b".toList, [], [], []⟩]
        ["x".toList, "day".toList, "day".toList] :=
  pass1_deterministic (fun s => s) (fun _ => "day".toList)
    (fun m => if m.date_utc.isEmpty then none else some m.date_utc)
    [⟨1, "2025-07-05".toList, [], "a".toList, [], [], []⟩,
     ⟨2, "2025-07-06".toList, [], "b".toList, [], [], []⟩]
    ["day".toList, "x".toList] ["x".toList, "day".toList, "day".toList]
    (by intro s; simp only [List.mem_cons, List.not_mem_nil, or_false]; tauto)

/-- Witness for C4: a run with a constant slugifier (every title slugifies
to `day`) against the pre-existing stems `day`, `x` — the buckets get the
distinct suffixed slugs `day-2` and `day-3`, disjoint from the stems. -/
theorem slug_uniqueness_witness :
    (reserve_unique_slug ("day".toList) ["day".toList, "x".toList]).1 ∉
      ["day".toList, "x".toList] ∧
    ((([⟨"2025-07-05".toList, "a".toList, "day-2".toList,
          [⟨1, "2025-07-05".toList, [], "a".toList, [], [], []⟩]⟩,
        ⟨"2025-07-06".toList, "b".toList, "day-3".toList,
          [⟨2, "2025-07-06".toList, [], "b".toList, [], [], []⟩]⟩] :
        List DayPrep).map DayPrep.slug).Nodup ∧
      ∀ p ∈ ([⟨"2025-07-05".toList, "a".toList, "day-2".toList,
          [⟨1, "2025-07-05".toList, [], "a".toList, [], [], []⟩]⟩,
        ⟨"2025-07-06".toList, "b".toList, "day-3".toList,
          [⟨2, "2025-07-06".toList, [], "b".toList, [], [], []⟩]⟩] :
        List DayPrep), p.slug ∉ ["day".toList, "x".toList]) := by
  constructor
  · exact ((slug_uniqueness.1 ("day".toList) ["day".toList, "x".toList]).1)
  · have h := slug_uniqueness.2 (fun s => s) (fun _ => "day".toList)
      (fun m => if m.date_utc.isEmpty then none else some m.date_utc)
      [⟨1, "2025-07-05".toList, [], "a".toList, [], [], []⟩,
       ⟨2, "2025-07-06".toList, [], "b".toList, [], [], []⟩]
      ["day".toList, "x".toList]
      [⟨"2025-07-05".toList, "a".toList, "day-2".toList,
          [⟨1, "2025-07-05".toList, [], "a".toList, [], [], []⟩]⟩,
       ⟨"2025-07-06".toList, "b".toList, "day-3".toList,
          [⟨2, "2025-07-06".toList, [], "b".toList, [], [], []⟩]⟩]
      (by decide)
    exact ⟨h.1, h.2.1⟩

/-! ### Pass 2 emission and the dry-run report -/

/-- `title.replace('"', '\\"')`. -/
def escapeTitleQuotes (t : Str) : Str :=
  (t.map fun c => if c == '"' then ['\\', '"'] else [c]).flatten

/-- `compose_front_matter_toml(title, date_str)` from `tg2hugo.py`. -/
def compose_front_matter_toml (title dateStr : Str) : Str :=
  "+++\ntitle = \"".toList ++ escapeTitleQuotes title ++
    "\"\ndate = \"".toList ++ dateStr ++ "\"\ntags = []\n+++\n\n".toList

/-- The `chunks` assembly of Pass 2 (lines 909–921): image links above or
below the text per the placement option. -/
def bucketChunks (placement : Str) (imageLinks : List Str) (bodyMd : Str) :
    List Str :=
  (if placement == "top".toList && !imageLinks.isEmpty then
    (imageLinks.map fun l => "![](".toList ++ l ++ [')']) ++ [[]]
  else []) ++
  (if bodyMd.isEmpty then [] else [pyStrip bodyMd]) ++
  (if placement == "bottom".toList && !imageLinks.isEmpty then
    (if bodyMd.isEmpty then [] else [[]]) ++
      (imageLinks.map fun l => "![](".toList ++ l ++ [')'])
  else [])

/-- `content_body = ("\n".join(chunks)).rstrip() + "\n"`. -/
def content_body_of (placement : Str) (imageLinks : List Str) (bodyMd : Str) : Str :=
  pyStripRight (List.intercalate ['\n'] (bucketChunks placement imageLinks bodyMd)) ++
    ['\n']

/-- The terminal action of Pass 2 for one bucket. -/
inductive RunEffect where
  | write : Str → Str → RunEffect
  | dryReport : Str → Str → Nat → RunEffect
deriving DecidableEq

/-- Lines 924–935 of `tg2hugo.py`: compose the front matter and content
body; in dry-run mode print the destination name, the title and
`len(front + content_body)` (labelled "bytes") instead of writing. -/
def emitBucketDoc (dryRun : Bool) (slug title dateStr placement : Str)
    (imageLinks : List Str) (bodyMd : Str) : RunEffect :=
  if dryRun then
    RunEffect.dryReport (slug ++ ".md".toList) title
      (compose_front_matter_toml title dateStr ++
        content_body_of placement imageLinks bodyMd).length
  else
    RunEffect.write (slug ++ ".md".toList)
      (compose_front_matter_toml title dateStr ++
        content_body_of placement imageLinks bodyMd)

/-- UTF-8 length of one code point. -/
def utf8CharLen (c : Char) : Nat :=
  if c.toNat < 0x80 then 1
  else if c.toNat < 0x800 then 2
  else if c.toNat < 0x10000 then 3
  else 4

/-- The number of bytes `write_text(..., encoding="utf-8")` stores. -/
def utf8Length (s : Str) : Nat := (s.map utf8CharLen).sum

theorem utf8Length_ascii (s : Str) (h : ∀ c ∈ s, c.toNat < 128) :
    s.length = utf8Length s := by
  induction s with
  | nil => rfl
  | cons c rest ih =>
    have hc : c.toNat < 128 := h c (List.mem_cons_self c rest)
    have hrest := ih fun d hd => h d (List.mem_cons_of_mem c hd)
    simp only [utf8Length, List.map_cons, List.sum_cons, List.length_cons]
    rw [show utf8CharLen c = 1 from by simp [utf8CharLen, hc]]
    simp only [utf8Length] at hrest
    omega

/-- Claim C6 (amended): in dry-run mode the same front matter and content
body are assembled as in the write path, the destination file is not
written, and the report carries the destination name and the *code-point
count* `len(front + content_body)` (which the code labels "bytes"); that
count equals the UTF-8 byte size the write would produce exactly when the
document is pure ASCII. -/
theorem emitBucketDoc_dry_run (slug title dateStr placement : Str)
    (imageLinks : List Str) (bodyMd : Str) :
    emitBucketDoc true slug title dateStr placement imageLinks bodyMd =
      RunEffect.dryReport (slug ++ ".md".toList) title
        (compose_front_matter_toml title dateStr ++
          content_body_of placement imageLinks bodyMd).length ∧
    emitBucketDoc false slug title dateStr placement imageLinks bodyMd =
      RunEffect.write (slug ++ ".md".toList)
        (compose_front_matter_toml title dateStr ++
          content_body_of placement imageLinks bodyMd) ∧
    ((∀ c ∈ compose_front_matter_toml title dateStr ++
        content_body_of placement imageLinks bodyMd, c.toNat < 128) →
      (compose_front_matter_toml title dateStr ++
        content_body_of placement imageLinks bodyMd).length =
      utf8Length (compose_front_matter_toml title dateStr ++
        content_body_of placement imageLinks bodyMd)) := by
  exact ⟨rfl, rfl, utf8Length_ascii _⟩

/-- Witness for C6's amended claim at a concrete ASCII bucket. -/
theorem emitBucketDoc_dry_run_witness :
    emitBucketDoc true ("day".toList) ("T".toList) ("2025-07-05T10:00:00+02:00".toList)
        ("none".toList) [] ("body\n".toList) =
      RunEffect.dryReport ("day.md".toList) ("T".toList)
        (compose_front_matter_toml ("T".toList) ("2025-07-05T10:00:00+02:00".toList) ++
          content_body_of ("none".toList) [] ("body\n".toList)).length ∧
    (compose_front_matter_toml ("T".toList) ("2025-07-05T10:00:00+02:00".toList) ++
      content_body_of ("none".toList) [] ("body\n".toList)).length =
    utf8Length (compose_front_matter_toml ("T".toList)
      ("2025-07-05T10:00:00+02:00".toList) ++
        content_body_of ("none".toList) [] ("body\n".toList)) := by
  have h := emitBucketDoc_dry_run ("day".toList) ("T".toList)
    ("2025-07-05T10:00:00+02:00".toList) ("none".toList) [] ("body\n".toList)
  exact ⟨h.1, h.2.2 (by decide)⟩

/-- Counterexample for C6 as stated: for a bucket whose title contains a
non-ASCII character (the default fallback titles are Russian), the
reported number is the code-point count, which differs from the UTF-8 byte
size the write would produce. -/
theorem emitBucketDoc_dry_run_size_not_bytes :
    emitBucketDoc true ("fotoalbom".toList) ("Фотоальбом".toList)
        ("2025-07-05T10:00:00+02:00".toList) ("none".toList) [] ("Ф\n".toList) =
      RunEffect.dryReport ("fotoalbom.md".toList) ("Фотоальбом".toList)
        (compose_front_matter_toml ("Фотоальбом".toList)
          ("2025-07-05T10:00:00+02:00".toList) ++
            content_body_of ("none".toList) [] ("Ф\n".toList)).length ∧
    (compose_front_matter_toml ("Фотоальбом".toList)
      ("2025-07-05T10:00:00+02:00".toList) ++
        content_body_of ("none".toList) [] ("Ф\n".toList)).length ≠
    utf8Length (compose_front_matter_toml ("Фотоальбом".toList)
      ("2025-07-05T10:00:00+02:00".toList) ++
        content_body_of ("none".toList) [] ("Ф\n".toList)) := by
  exact ⟨rfl, by decide⟩
